import Mathlib

/-!
# Phrase-Indexer: a verification development

A shallow embedding of `src/phrase_indexer.go` and theorems about it.

Conventions of the embedding.

* Go's `uint32` values are natural numbers, and every `uint32` addition is
  followed by an explicit `% 2 ^ 32`.  Go's `uint` is `bits` wide (32 or 64,
  depending on the platform) and its arithmetic is taken `% 2 ^ bits`.
* A Go `map[string]uint32` is an association list with pairwise distinct
  keys (`GoMap`).  The order of the list is the order of first insertion and
  is never observed directly: a `range` over the map goes through a
  `rangeOrder` function, which stands for the iteration order the Go runtime
  picks and is only assumed to return a permutation of the entries.
* Library calls whose code is not part of the repository (`unicode.ToLower`,
  `sort.Slice`, `http.Get`, the HTML query) are parameters of the
  definitions that use them.
* A Go `string` is a `String`, that is a sequence of Unicode code points: the
  texts the program handles come out of the HTML parser, which yields valid
  UTF-8.
* The input of `collector` is the list of the values it receives from its
  channel before the channel is closed.  A send on the unbuffered channel `jobs`
  completes only if a worker receives it; whether it does is a parameter of
  `initJobs`.  The interleaving of goroutines is not modelled: each goroutine's
  body is a function of what it receives.
* A `panic` in `getResponse` or `getHtml` is the error of an `Except`, and the
  run of a worker is the list of its events, deferred calls included.  A loop
  whose termination is in question takes a fuel argument and returns `none`
  when the fuel runs out.
-/

namespace PhraseIndexer

/-! ## Data model -/

/-- The struct `phraseCnt` of the source: a phrase and its `uint32` count. -/
structure phraseCnt where
  phrase : String
  count : Nat
  deriving DecidableEq, Repr

/-- A Go `map[string]uint32`, as an association list. -/
abbrev GoMap := List (String × Nat)

/-- The map invariant: no key occurs twice. -/
def GoMap.WF (m : GoMap) : Prop := (m.map Prod.fst).Nodup

/-- The entry stored under key `k`, if there is one. -/
def GoMap.find? : GoMap → String → Option Nat
  | [], _ => none
  | (k', v) :: rest, k => if k' = k then some v else GoMap.find? rest k

/-- Reading `m[k]` in Go: the stored value, or the zero value if `k` is absent. -/
def GoMap.get (m : GoMap) (k : String) : Nat :=
  match m.find? k with
  | some v => v
  | none => 0

/-- Writing `m[k] = v` in Go: overwrite the entry of `k`, or insert a new one. -/
def GoMap.set : GoMap → String → Nat → GoMap
  | [], k, v => [(k, v)]
  | (k', v') :: rest, k, v =>
    if k' = k then (k', v) :: rest else (k', v') :: GoMap.set rest k v

/-- The statement `m[k] += c` on a `map[string]uint32`. -/
def GoMap.add (m : GoMap) (k : String) (c : Nat) : GoMap :=
  m.set k ((m.get k + c) % 2 ^ 32)

/-! ## collector -/

/-- The body of the inner loop of `collector`: `state[tuple.phrase] += tuple.count`
for every tuple of one received slice. -/
def collectIteration (state : GoMap) (iteration : List phraseCnt) : GoMap :=
  iteration.foldl (fun st tuple => st.add tuple.phrase tuple.count) state

/-- The function `collector`: starting from the empty map, merge every slice
received on `input` until the channel is closed, then deliver the map. -/
def collector (input : List (List phraseCnt)) : GoMap :=
  input.foldl collectIteration []

/-- The sum of the counts of the tuples of `ts` whose phrase is `p`. -/
def countSum (p : String) (ts : List phraseCnt) : Nat :=
  ((ts.filter (fun t => t.phrase = p)).map phraseCnt.count).sum

/-! ## normalize -/

/-- The character class of the regular expression `nonWord` in `normalize`:
the range `0-9`, the range `+-=` (code points 43 to 61), and the single
characters of the class. -/
def nonWord (c : Char) : Bool :=
  ('0' ≤ c && c ≤ '9') || ('+' ≤ c && c ≤ '=') ||
    [Char.ofNat 96, '~', '!', '@', '#', '$', '%', '^', '&', '*', '(', ')', '_',
      '[', ']', Char.ofNat 123, Char.ofNat 125, '|', Char.ofNat 39, Char.ofNat 34,
      ';', ':', '/', '.', ',', '>', '<'].contains c

/-- The method `ReplaceAllLiteralString` of a regular expression that is a
single character class `cls`: every matching character is replaced by `repl`. -/
def replaceAllLiteralString (cls : Char → Bool) (text repl : String) : String :=
  ⟨text.data.flatMap (fun c => if cls c then repl.data else [c])⟩

/-- The call `strings.ToLower`, which maps `unicode.ToLower` over the text. -/
def stringsToLower (toLower : Char → Char) (text : String) : String :=
  ⟨text.data.map toLower⟩

/-- The table `replacements` of `replacePolishDiacritics`: the character class
of each regular expression and the letter that replaces its matches. -/
def replacements : List (List Char × Char) :=
  [(['ą'], 'a'), (['ć'], 'c'), (['ę'], 'e'), (['ł'], 'l'), (['ó'], 'o'), (['ś'], 's'),
    (['ż', 'ź'], 'z')]

/-- The function `replacePolishDiacritics`; `order` is the order in which the
`range` over the map `replacements` visits its entries. -/
def replacePolishDiacritics (order : List (List Char × Char)) (text : String) : String :=
  order.foldl (fun t p => replaceAllLiteralString (fun c => p.1.contains c) t
    (String.singleton p.2)) text

/-- The function `normalize`: strip the `nonWord` characters, lowercase, then
replace the Polish diacritics. -/
def normalize (toLower : Char → Char) (order : List (List Char × Char)) (text : String) :
    String :=
  replacePolishDiacritics order
    (stringsToLower toLower (replaceAllLiteralString nonWord text ""))

/-! ## strings.Fields -/

/-- The predicate `unicode.IsSpace`. -/
def isSpace (c : Char) : Bool :=
  [9, 10, 11, 12, 13, 32, 133, 160, 5760, 8232, 8233, 8239, 8287, 12288].contains c.toNat ||
    (8192 ≤ c.toNat && c.toNat ≤ 8202)

/-- The loop of `strings.Fields`; `cur` is the field being read. -/
def fieldsAux : List Char → List Char → List String
  | [], cur => if cur = [] then [] else [String.mk cur]
  | c :: rest, cur =>
    if isSpace c then
      (if cur = [] then fieldsAux rest [] else String.mk cur :: fieldsAux rest [])
    else fieldsAux rest (cur ++ [c])

/-- The call `strings.Fields`: the maximal runs of non-space characters. -/
def fields (s : String) : List String := fieldsAux s.data []

/-! ## The environment of the program -/

/-- What the worker observes of a parsed document: the texts of the
selections that `doc.Find(selector)` yields, in document order. -/
abbrev Document := String → List String

/-- An HTTP response, as far as the program reads it. -/
structure Response where
  statusCode : Nat
  body : String
  deriving DecidableEq, Repr

/-- The library calls and runtime choices the program depends on. -/
structure Env where
  /-- The function `unicode.ToLower`. -/
  toLower : Char → Char
  /-- The order in which `replacePolishDiacritics` ranges over `replacements`
  when called on the given text. -/
  replOrder : String → List (List Char × Char)
  /-- The order in which a `range` visits the entries of a `map[string]uint32`. -/
  rangeOrder : GoMap → List (String × Nat)
  /-- The call `sort.Slice` on a `[]phraseCnt`. -/
  sortSlice : (phraseCnt → phraseCnt → Bool) → List phraseCnt → List phraseCnt
  /-- The call `http.Get`: an error or a response. -/
  httpGet : String → Except String Response
  /-- The call `goquery.NewDocumentFromReader` on a response body. -/
  newDocumentFromReader : String → Except String Document

/-! ## worker -/

/-- The callback of `Each` in `worker`: normalize the text of one selection,
split it into fields and run `phrasesCount[phrase]++` on each. -/
def countRun (env : Env) (phrasesCount : GoMap) (rawText : String) : GoMap :=
  (fields (normalize env.toLower (env.replOrder rawText) rawText)).foldl
    (fun m phrase => m.add phrase 1) phrasesCount

/-- The map `phrasesCount` of `worker` after `Each` has visited every selection. -/
def phrasesCount (env : Env) (runs : List String) : GoMap :=
  runs.foldl (countRun env) []

/-- The slice `phrasesCountAsSlice` that `worker` sends to the collector. -/
def phrasesCountAsSlice (env : Env) (runs : List String) : List phraseCnt :=
  (env.rangeOrder (phrasesCount env runs)).map (fun e => ⟨e.1, e.2⟩)

/-- The tokens of a document: the fields of its normalized runs, in order. -/
def tokens (env : Env) (runs : List String) : List String :=
  runs.flatMap (fun rawText => fields (normalize env.toLower (env.replOrder rawText) rawText))

/-! ## getResponse, getHtml and the failure path -/

/-- The value a `panic` carries. -/
inductive Panic where
  | transport (err : String)
  | status (msg : String)
  | parse (err : String)
  deriving DecidableEq, Repr

/-- The function `getResponse`: panic on a transport error or on a status
code other than 200. -/
def getResponse (env : Env) (site : String) : Except Panic Response :=
  match env.httpGet site with
  | .error err => .error (.transport err)
  | .ok resp =>
    if resp.statusCode ≠ 200 then
      .error (.status ("Got response status code equal " ++ toString resp.statusCode ++
        ". Aborting."))
    else .ok resp

/-- The function `getHtml`: panic if the body does not parse. -/
def getHtml (env : Env) (resp : Response) : Except Panic Document :=
  match env.newDocumentFromReader resp.body with
  | .error err => .error (.parse err)
  | .ok doc => .ok doc

/-- What a worker goroutine does, as far as the other goroutines see it. -/
inductive WorkerEvent where
  /-- The statement `collector <- &phrasesCountAsSlice`. -/
  | send (table : List phraseCnt)
  /-- The statement `log.Printf("Job done: %v\n", job)`. -/
  | jobDone (job : String)
  /-- A `panic` raised in `getResponse` or `getHtml`. -/
  | panic (p : Panic)
  /-- A deferred `resp.Body.Close()`. -/
  | bodyClose (resp : Response)
  /-- The deferred `wg.Done()`. -/
  | wgDone
  /-- The end of the process, once the deferred calls of a panicking goroutine
  have run. -/
  | crash
  deriving DecidableEq, Repr

/-- The loop `for job := range jobs` of `worker` on the jobs it receives, and
what follows it.  The list `deferred` holds the responses whose
`resp.Body.Close()` has been deferred, the latest first.  When the channel is
closed the function returns and its deferred calls run, `wg.Done()` last; when
`getResponse` or `getHtml` panics, nothing is counted or sent for the job, no
further job is received, the deferred calls run all the same, and the panic,
which nothing recovers, ends the process.  The send to the collector is taken
to complete: the collector receives for as long as its channel is open. -/
def workerLoop (env : Env) (selector : String) :
    List String → List Response → List WorkerEvent
  | [], deferred => deferred.map WorkerEvent.bodyClose ++ [.wgDone]
  | job :: jobs, deferred =>
    match getResponse env job with
    | .error p => .panic p :: (deferred.map WorkerEvent.bodyClose ++ [.wgDone, .crash])
    | .ok resp =>
      match getHtml env resp with
      | .error p => .panic p :: (deferred.map WorkerEvent.bodyClose ++ [.wgDone, .crash])
      | .ok doc =>
        .send (phrasesCountAsSlice env (doc selector)) :: .jobDone job ::
          workerLoop env selector jobs (resp :: deferred)

/-- The function `worker`, run on the jobs `jobs` that it receives from the
channel before the channel is closed. -/
def worker (env : Env) (selector : String) (jobs : List String) : List WorkerEvent :=
  workerLoop env selector jobs []

/-- The slices sent to the collector in a run of a worker. -/
def sentTables : List WorkerEvent → List (List phraseCnt)
  | [] => []
  | .send table :: rest => table :: sentTables rest
  | _ :: rest => sentTables rest

/-! ## sortByPhraseCount and printOutRanking -/

/-- The first loop of `sortByPhraseCount`: store each visited entry at index
`i` of `ranking` and increment the `uint32` index. -/
def fillRanking : List phraseCnt → Nat → List (String × Nat) → List phraseCnt
  | ranking, _, [] => ranking
  | ranking, i, (phrase, cnt) :: rest =>
    fillRanking (ranking.set i ⟨phrase, cnt⟩) ((i + 1) % 2 ^ 32) rest

/-- The comparison handed to `sort.Slice`: `ranking[i].count > ranking[j].count`. -/
def byCountDesc (a b : phraseCnt) : Bool := decide (a.count > b.count)

/-- The function `sortByPhraseCount`. -/
def sortByPhraseCount (env : Env) (phraseCounts : GoMap) : List phraseCnt :=
  env.sortSlice byCountDesc
    (fillRanking (List.replicate phraseCounts.length ⟨"", 0⟩) 0 (env.rangeOrder phraseCounts))

/-- An operand of a formatting call. -/
inductive FmtArg where
  | uint (n : Nat)
  | str (s : String)

/-- The verb `%v` applied to an operand; `space` is the flag of `% v`, which
puts a blank before a number and leaves a string as it is. -/
def fmtV (space : Bool) : FmtArg → List Char
  | .uint n => (if space then [' '] else []) ++ (Nat.repr n).data
  | .str s => s.data

/-- The formatting of `fmt.Sprintf` and `fmt.Printf`, for the verbs `%v` and `% v`. -/
def sprintf : List Char → List FmtArg → List Char
  | [], _ => []
  | '%' :: 'v' :: rest, a :: args => fmtV false a ++ sprintf rest args
  | '%' :: ' ' :: 'v' :: rest, a :: args => fmtV true a ++ sprintf rest args
  | '%' :: 'v' :: rest, [] => "%!v(MISSING)".data ++ sprintf rest []
  | '%' :: ' ' :: 'v' :: rest, [] => "%!v(MISSING)".data ++ sprintf rest []
  | c :: rest, args => c :: sprintf rest args

/-- The line `fmt.Printf("%v \t\t\t% v\n", elem.count, elem.phrase)` writes. -/
def printfLine (elem : phraseCnt) : String :=
  ⟨sprintf "%v \t\t\t% v\n".data [.uint elem.count, .str elem.phrase]⟩

/-- The loop of `printOutRanking`; `i` is the index of the element at the head. -/
def printLoop (limit : Int) : Nat → List phraseCnt → List String
  | _, [] => []
  | i, elem :: rest =>
    if (i : Int) ≥ limit then [] else printfLine elem :: printLoop limit (i + 1) rest

/-- The function `printOutRanking`: the strings written to standard output. -/
def printOutRanking (env : Env) (phraseCounts : GoMap) (limit : Int) : List String :=
  printLoop limit 0 (sortByPhraseCount env phraseCounts)

/-! ## initJobs -/

/-- An operation on the channel `jobs`. -/
inductive ChanOp where
  | send (job : String)
  | close
  deriving DecidableEq, Repr

/-- How a call of `initJobs` ends. -/
inductive InitJobsRun where
  /-- The call returned, having performed the operations `ops` on `jobs`. -/
  | returned (ops : List ChanOp)
  /-- The call is blocked in a send that no goroutine receives, having completed
  the operations `ops` on `jobs`. -/
  | blocked (ops : List ChanOp)
  deriving DecidableEq, Repr

/-- The run in which the operation `op` completes first. -/
def InitJobsRun.after (op : ChanOp) : InitJobsRun → InitJobsRun
  | .returned ops => .returned (op :: ops)
  | .blocked ops => .blocked (op :: ops)

/-- The loop `for i := start; i <= end; i++` of `initJobs` followed by
`close(jobs)`, from the state `i` with `k` sends completed.  The channel `jobs`
is unbuffered (`make(chan string)` in `spawnWorkers`), so the statement
`jobs <- ...` completes only if a worker receives the value: `received k` tells
whether the send number `k` (from 0) is received.  The result is `none` if the
loop is still running when the fuel is spent. -/
def initJobsLoop (bits : Nat) (received : Nat → Bool) (threadURL : String) (last : Nat) :
    Nat → Nat → Nat → Option InitJobsRun
  | 0, _, _ => none
  | fuel + 1, i, k =>
    if i ≤ last then
      if received k then
        (initJobsLoop bits received threadURL last fuel ((i + 1) % 2 ^ bits) (k + 1)).map
          (InitJobsRun.after (.send (threadURL ++ ⟨sprintf "%v".data [.uint i]⟩)))
      else some (.blocked [])
    else some (.returned [.close])

/-- The function `initJobs`, with `last` for the parameter `end`. -/
def initJobs (bits fuel : Nat) (received : Nat → Bool) (threadURL : String) (start last : Nat) :
    Option InitJobsRun :=
  initJobsLoop bits received threadURL last fuel start 0

/-- The sends of the jobs `i`, `i + 1`, ..., `i + n - 1`. -/
def sendsFrom (threadURL : String) (i n : Nat) : List ChanOp :=
  (List.range n).map (fun j => ChanOp.send (threadURL ++ Nat.repr (i + j)))

/-! ## main and spawnWorkers -/

/-- The value `jobSize := end - start + 1` of `main`, in `uint` arithmetic. -/
def jobSize (bits start last : Nat) : Nat :=
  ((last + 2 ^ bits - start) % 2 ^ bits + 1) % 2 ^ bits

/-- The value of `nworkers` after `if nworkers > jobSize { nworkers = jobSize }`. -/
def clampWorkers (bits nworkers start last : Nat) : Nat :=
  if nworkers > jobSize bits start last then jobSize bits start last else nworkers

/-- The loop `for i = 0; i < howMany; i++` of `spawnWorkers`: the number of
`go worker(...)` statements executed from the state `i` with `spawned` workers
already started, or `none` if the loop is still running when the fuel is spent. -/
def spawnLoop (bits howMany : Nat) : Nat → Nat → Nat → Option Nat
  | 0, _, _ => none
  | fuel + 1, i, spawned =>
    if i < howMany then spawnLoop bits howMany fuel ((i + 1) % 2 ^ bits) (spawned + 1)
    else some spawned

/-- The function `spawnWorkers`: the number of workers it starts. -/
def spawnWorkers (bits fuel howMany : Nat) : Option Nat :=
  spawnLoop bits howMany fuel 0 0

/-- The values of the command-line flags after `flag.Parse`, with `last` for
the flag `end`. -/
structure Args where
  threadURL : String
  selector : String
  exclude : String
  start : Nat
  last : Nat
  workers : Nat
  limit : Int
  deriving DecidableEq, Repr

/-- The check at the end of `getArguments`: if `end` is 0 or `threadURL` or
`selector` is empty, the process prints a message and exits with status 1;
otherwise the values are returned. -/
def getArguments (parsed : Args) : Except Nat Args :=
  if parsed.last = 0 ∨ parsed.threadURL = "" ∨ parsed.selector = "" then .error 1
  else .ok parsed

/-- How far `main` gets with starting its workers. -/
inductive MainStart where
  /-- The process exited in `getArguments`, before any worker was started. -/
  | exited (code : Nat)
  /-- The call of `spawnWorkers` returned after starting `workers` workers. -/
  | spawned (workers : Nat)
  deriving DecidableEq, Repr

/-- The beginning of `main`, up to the return of `spawnWorkers`: the arguments
are checked by `getArguments`, `nworkers` is clamped to `jobSize`, and
`spawnWorkers` starts the workers.  The value of `exclude` is discarded. -/
def mainWorkers (bits fuel : Nat) (parsed : Args) : Option MainStart :=
  match getArguments parsed with
  | .error code => some (.exited code)
  | .ok args =>
    (spawnWorkers bits fuel (clampWorkers bits args.workers args.start args.last)).map
      MainStart.spawned

/-! ## A reference environment -/

/-- The pairs of `unicode.ToLower` on the ASCII and the Polish capital letters. -/
def lowerTable : List (Char × Char) :=
  [('A', 'a'), ('B', 'b'), ('C', 'c'), ('D', 'd'), ('E', 'e'), ('F', 'f'), ('G', 'g'),
    ('H', 'h'), ('I', 'i'), ('J', 'j'), ('K', 'k'), ('L', 'l'), ('M', 'm'), ('N', 'n'),
    ('O', 'o'), ('P', 'p'), ('Q', 'q'), ('R', 'r'), ('S', 's'), ('T', 't'), ('U', 'u'),
    ('V', 'v'), ('W', 'w'), ('X', 'x'), ('Y', 'y'), ('Z', 'z'),
    ('Ą', 'ą'), ('Ć', 'ć'), ('Ę', 'ę'), ('Ł', 'ł'), ('Ń', 'ń'), ('Ó', 'ó'), ('Ś', 'ś'),
    ('Ź', 'ź'), ('Ż', 'ż')]

/-- The restriction of `unicode.ToLower` to the letters of `lowerTable`. -/
def refToLower (c : Char) : Char :=
  match lowerTable.lookup c with
  | some d => d
  | none => c

/-- Insertion of `a` into a list that is sorted for `less`. -/
def orderedInsert (less : phraseCnt → phraseCnt → Bool) (a : phraseCnt) :
    List phraseCnt → List phraseCnt
  | [] => [a]
  | b :: rest => if less b a then b :: orderedInsert less a rest else a :: b :: rest

/-- An insertion sort, one of the behaviours that `sort.Slice` allows. -/
def refSortSlice (less : phraseCnt → phraseCnt → Bool) : List phraseCnt → List phraseCnt
  | [] => []
  | a :: rest => orderedInsert less a (refSortSlice less rest)

/-- An environment in which every page is served with status 200 and the
document `doc`, and maps are ranged over in insertion order. -/
def refEnv (doc : String → Document) : Env where
  toLower := refToLower
  replOrder := fun _ => replacements
  rangeOrder := fun m => m
  sortSlice := refSortSlice
  httpGet := fun site => .ok ⟨200, site⟩
  newDocumentFromReader := fun body => .ok (doc body)

/-! ## Specification predicates -/

/-- A success status of HTTP: the class 2xx. -/
def isSuccessStatus (code : Nat) : Bool := 200 ≤ code && code < 300

/-- The fetch of `site` fails in the words of the specification: the transport
returns an error or the status is not a success status. -/
def fetchFailsSpec (env : Env) (site : String) : Bool :=
  match env.httpGet site with
  | .error _ => true
  | .ok resp => !isSuccessStatus resp.statusCode

/-- The fetch of `site` fails for `getResponse`: the transport returns an
error or the status code is not 200. -/
def fetchFails (env : Env) (site : String) : Bool :=
  match env.httpGet site with
  | .error _ => true
  | .ok resp => decide (resp.statusCode ≠ 200)

/-- The sum of the second components of the pairs of `kcs` whose key is `p`. -/
def pairSum (p : String) (kcs : List (String × Nat)) : Nat :=
  ((kcs.filter (fun e => e.1 = p)).map Prod.snd).sum

/-- Running `m[k] += c` for every pair `(k, c)` of a list. -/
def addAll (st : GoMap) (kcs : List (String × Nat)) : GoMap :=
  kcs.foldl (fun m e => m.add e.1 e.2) st

/-- What `replacePolishDiacritics` does to one character when the entries of
`replacements` are visited in the order `order`. -/
def foldChar (order : List (List Char × Char)) (c : Char) : Char :=
  order.foldl (fun c p => if p.1.contains c then p.2 else c) c

/-- The properties of `unicode.ToLower` that the program relies on. -/
structure LowerOK (toLower : Char → Char) : Prop where
  /-- On ASCII, `unicode.ToLower` is the ASCII lowercasing. -/
  ascii : ∀ c : Char, c.toNat < 128 → toLower c = c.toLower
  /-- A lowercased character is its own lowercase. -/
  idem : ∀ c : Char, toLower (toLower c) = toLower c
  /-- Lowercasing never turns another character into a digit or punctuation sign. -/
  keeps : ∀ c : Char, nonWord (toLower c) = true → nonWord c = true

/-- What the program assumes of its environment. -/
structure Env.Valid (env : Env) : Prop where
  /-- The function `unicode.ToLower` behaves as documented. -/
  lower : LowerOK env.toLower
  /-- A `range` over `replacements` visits every entry once. -/
  replOrder_perm : ∀ text, (env.replOrder text).Perm replacements
  /-- A `range` over a map visits every entry once. -/
  rangeOrder_perm : ∀ m : GoMap, (env.rangeOrder m).Perm m
  /-- The call `sort.Slice` permutes the slice. -/
  sort_perm : ∀ less xs, (env.sortSlice less xs).Perm xs
  /-- The call `sort.Slice` leaves no element before one that is less than it,
  if `less` is asymmetric and its complement transitive. -/
  sort_sorted : ∀ less xs, (∀ a b, less a b = true → less b a = false) →
    (∀ a b c, less a b = false → less b c = false → less a c = false) →
    (env.sortSlice less xs).Pairwise (fun a b => less b a = false)

/-- A table of `2 ^ 32 + 1` distinct phrases `a`, `aa`, `aaa`, ..., each with count 1. -/
def bigTable : GoMap :=
  (List.range 4294967297).map (fun i => (String.mk (List.replicate (i + 1) 'a'), 1))

/-- The reference environment in which the page `site` is served with the
status code `status site` and an empty document. -/
def statusEnv (status : String → Nat) : Env where
  toLower := refToLower
  replOrder := fun _ => replacements
  rangeOrder := fun m => m
  sortSlice := refSortSlice
  httpGet := fun site => .ok ⟨status site, site⟩
  newDocumentFromReader := fun _ => .ok (fun _ => [])

/-! # Theorems -/

/-! ### Lemmas on the map model -/

theorem GoMap.find?_set_self (m : GoMap) (k : String) (v : Nat) :
    (m.set k v).find? k = some v := by
  induction m with
  | nil => simp [GoMap.set, GoMap.find?]
  | cons e rest ih =>
    obtain ⟨k', v'⟩ := e
    by_cases h : k' = k
    · simp [GoMap.set, GoMap.find?, h]
    · simp [GoMap.set, GoMap.find?, h, ih]

theorem GoMap.find?_set_other (m : GoMap) (k k₂ : String) (v : Nat) (h : k ≠ k₂) :
    (m.set k v).find? k₂ = m.find? k₂ := by
  induction m with
  | nil => simp [GoMap.set, GoMap.find?, h]
  | cons e rest ih =>
    obtain ⟨k', v'⟩ := e
    by_cases h' : k' = k
    · subst h'
      simp [GoMap.set, GoMap.find?, h]
    · by_cases h₂ : k' = k₂
      · subst h₂
        simp [GoMap.set, GoMap.find?, h']
      · simp [GoMap.set, GoMap.find?, h', h₂, ih]

theorem GoMap.keys_set (m : GoMap) (k : String) (v : Nat) :
    (m.set k v).map Prod.fst =
      if k ∈ m.map Prod.fst then m.map Prod.fst else m.map Prod.fst ++ [k] := by
  induction m with
  | nil => simp [GoMap.set]
  | cons e rest ih =>
    obtain ⟨k', v'⟩ := e
    by_cases h : k' = k
    · subst h
      simp [GoMap.set]
    · have h₂ : ¬ k = k' := fun h₃ => h h₃.symm
      simp only [GoMap.set, h, if_false, List.map_cons, ih, List.mem_cons, h₂, false_or]
      split <;> simp

theorem GoMap.WF_set (m : GoMap) (k : String) (v : Nat) (h : m.WF) : (m.set k v).WF := by
  unfold GoMap.WF at *
  rw [GoMap.keys_set]
  split
  · exact h
  · rename_i hk
    rw [List.nodup_append]
    refine ⟨h, List.nodup_singleton k, ?_⟩
    intro a ha hb
    simp at hb
    subst hb
    exact hk ha

theorem GoMap.find?_eq_none_iff (m : GoMap) (k : String) :
    m.find? k = none ↔ k ∉ m.map Prod.fst := by
  induction m with
  | nil => simp [GoMap.find?]
  | cons e rest ih =>
    obtain ⟨k', v'⟩ := e
    by_cases h : k' = k
    · simp [GoMap.find?, h]
    · have h₂ : ¬ k = k' := fun h₃ => h h₃.symm
      simp [GoMap.find?, h, h₂, ih]

theorem GoMap.mem_of_find? (m : GoMap) (k : String) (v : Nat) (h : m.find? k = some v) :
    (k, v) ∈ m := by
  induction m with
  | nil => simp [GoMap.find?] at h
  | cons e rest ih =>
    obtain ⟨k', v'⟩ := e
    by_cases h' : k' = k
    · simp [GoMap.find?, h'] at h
      simp [h, h']
    · simp [GoMap.find?, h'] at h
      exact List.mem_cons_of_mem _ (ih h)

theorem GoMap.find?_of_mem (m : GoMap) (hm : m.WF) (k : String) (v : Nat) (h : (k, v) ∈ m) :
    m.find? k = some v := by
  induction m with
  | nil => simp at h
  | cons e rest ih =>
    obtain ⟨k', v'⟩ := e
    unfold GoMap.WF at hm
    simp only [List.map_cons, List.nodup_cons] at hm
    by_cases h' : k' = k
    · subst h'
      simp only [List.mem_cons, Prod.mk.injEq, true_and] at h
      rcases h with h | h
      · simp [GoMap.find?, h]
      · exact absurd (List.mem_map_of_mem Prod.fst h) hm.1
    · simp only [List.mem_cons, Prod.mk.injEq] at h
      rcases h with h | h
      · exact absurd h.1.symm h'
      · simp [GoMap.find?, h', ih hm.2 h]

/-! ### collector -/

theorem GoMap.get_add_self (m : GoMap) (k : String) (c : Nat) :
    (m.add k c).get k = (m.get k + c) % 2 ^ 32 := by
  simp [GoMap.add, GoMap.get, GoMap.find?_set_self]

theorem GoMap.find?_add_other (m : GoMap) (k k₂ : String) (c : Nat) (h : k ≠ k₂) :
    (m.add k c).find? k₂ = m.find? k₂ := by
  simp [GoMap.add, GoMap.find?_set_other _ _ _ _ h]

theorem GoMap.get_add_other (m : GoMap) (k k₂ : String) (c : Nat) (h : k ≠ k₂) :
    (m.add k c).get k₂ = m.get k₂ := by
  simp [GoMap.get, GoMap.find?_add_other _ _ _ _ h]

theorem GoMap.WF_add (m : GoMap) (k : String) (c : Nat) (h : m.WF) : (m.add k c).WF :=
  GoMap.WF_set _ _ _ h

theorem find?_addAll (kcs : List (String × Nat)) (st : GoMap) (p : String) :
    (addAll st kcs).find? p =
      if p ∈ kcs.map Prod.fst then some ((st.get p + pairSum p kcs) % 2 ^ 32)
      else st.find? p := by
  induction kcs generalizing st with
  | nil => simp [addAll]
  | cons e rest ih =>
    obtain ⟨k, c⟩ := e
    have hstep : addAll st ((k, c) :: rest) = addAll (st.add k c) rest := rfl
    rw [hstep, ih]
    by_cases hk : k = p
    · subst hk
      by_cases hr : k ∈ rest.map Prod.fst
      · simp only [hr, if_true, List.map_cons, List.mem_cons, true_or, GoMap.get_add_self]
        simp only [pairSum, List.filter_cons, decide_True, if_true, List.map_cons,
          List.sum_cons]
        congr 1
        rw [Nat.mod_add_mod, Nat.add_assoc]
      · have h0 : pairSum k rest = 0 := by
          unfold pairSum
          have : rest.filter (fun e => decide (e.1 = k)) = [] := by
            rw [List.filter_eq_nil_iff]
            intro a ha h
            simp at h
            exact hr (List.mem_map.2 ⟨a, ha, h⟩)
          simp [this]
        simp only [hr, if_false, List.map_cons, List.mem_cons, true_or, if_true]
        simp only [pairSum, List.filter_cons, decide_True, if_true, List.map_cons,
          List.sum_cons]
        simp only [pairSum] at h0
        rw [h0]
        simp [GoMap.add, GoMap.find?_set_self]
    · have hp : ¬ p = k := fun h => hk h.symm
      simp only [List.map_cons, List.mem_cons, hp, false_or, GoMap.get_add_other _ _ _ _ hk,
        GoMap.find?_add_other _ _ _ _ hk]
      simp only [pairSum, List.filter_cons, hk, decide_False, Bool.false_eq_true, if_false]

theorem WF_addAll (kcs : List (String × Nat)) (st : GoMap) (h : st.WF) : (addAll st kcs).WF := by
  induction kcs generalizing st with
  | nil => exact h
  | cons e rest ih => exact ih _ (GoMap.WF_add _ _ _ h)

theorem collector_eq_addAll (input : List (List phraseCnt)) :
    collector input = addAll [] (input.flatten.map (fun t => (t.phrase, t.count))) := by
  unfold collector addAll
  rw [List.foldl_map, List.foldl_flatten]
  rfl

theorem pairSum_map (p : String) (ts : List phraseCnt) :
    pairSum p (ts.map (fun t => (t.phrase, t.count))) = countSum p ts := by
  unfold pairSum countSum
  induction ts with
  | nil => rfl
  | cons t rest ih =>
    by_cases h : t.phrase = p
    · simp [List.filter_cons, h] at ih ⊢
      exact ih
    · simp [List.filter_cons, h] at ih ⊢
      exact ih

theorem find?_collector (input : List (List phraseCnt)) (p : String) :
    (collector input).find? p =
      if p ∈ input.flatten.map phraseCnt.phrase then some (countSum p input.flatten % 2 ^ 32)
      else none := by
  rw [collector_eq_addAll, find?_addAll, pairSum_map]
  simp [GoMap.get, GoMap.find?, Function.comp_def]

theorem WF_collector (input : List (List phraseCnt)) : (collector input).WF := by
  rw [collector_eq_addAll]
  exact WF_addAll _ _ (by simp [GoMap.WF])

theorem countSum_perm (p : String) {ts ts' : List phraseCnt} (h : ts.Perm ts') :
    countSum p ts = countSum p ts' := by
  unfold countSum
  exact ((h.filter _).map _).sum_eq

theorem GoMap.perm_of_find?_eq (m m' : GoMap) (h : m.WF) (h' : m'.WF)
    (heq : ∀ p, m.find? p = m'.find? p) : m.Perm m' := by
  rw [List.perm_ext_iff_of_nodup (List.Nodup.of_map _ h) (List.Nodup.of_map _ h')]
  rintro ⟨k, v⟩
  constructor
  · intro hm
    exact GoMap.mem_of_find? _ _ _ (by rw [← heq, GoMap.find?_of_mem _ h _ _ hm])
  · intro hm
    exact GoMap.mem_of_find? _ _ _ (by rw [heq, GoMap.find?_of_mem _ h' _ _ hm])

/-- C1, amended: the table `collector` delivers has pairwise distinct keys, maps
every phrase that occurs in a received tuple to the sum of the counts of the
received tuples with that phrase, reduced modulo `2 ^ 32` (so to the sum itself
when the sum is below `2 ^ 32`), and has no entry for any other phrase. -/
theorem collector_sums_mod_uint32 (input : List (List phraseCnt)) :
    (collector input).WF ∧
    ∀ p : String,
      (p ∈ input.flatten.map phraseCnt.phrase →
        (collector input).find? p = some (countSum p input.flatten % 2 ^ 32) ∧
        (countSum p input.flatten < 2 ^ 32 →
          (collector input).find? p = some (countSum p input.flatten))) ∧
      (p ∉ input.flatten.map phraseCnt.phrase → (collector input).find? p = none) := by
  refine ⟨WF_collector input, fun p => ⟨fun hp => ⟨?_, fun hlt => ?_⟩, fun hp => ?_⟩⟩
  · rw [find?_collector, if_pos hp]
  · rw [find?_collector, if_pos hp, Nat.mod_eq_of_lt hlt]
  · rw [find?_collector, if_neg hp]

/-- C1 as stated fails: after the tuples `("a", 4294967295)` and `("a", 1)` the
table holds `0` for `"a"`, while the sum of the received counts is `4294967296`. -/
theorem collector_sum_overflow :
    (collector [[⟨"a", 4294967295⟩], [⟨"a", 1⟩]]).find? "a" = some 0 ∧
    countSum "a" (List.flatten [[⟨"a", 4294967295⟩], [⟨"a", 1⟩]]) = 4294967296 ∧
    (collector [[⟨"a", 4294967295⟩], [⟨"a", 1⟩]]).find? "a" ≠
      some (countSum "a" (List.flatten [[⟨"a", 4294967295⟩], [⟨"a", 1⟩]])) := by
  decide

/-- C2: a permutation of the sequence of received slices does not change the
table `collector` delivers: every phrase has the same entry, and the two tables
hold the same entries. -/
theorem collector_perm_invariant (input input' : List (List phraseCnt))
    (h : input.Perm input') :
    (∀ p : String, (collector input).find? p = (collector input').find? p) ∧
    (collector input).Perm (collector input') := by
  have hfl : input.flatten.Perm input'.flatten := h.flatten
  have heq : ∀ p : String, (collector input).find? p = (collector input').find? p := by
    intro p
    rw [find?_collector, find?_collector, countSum_perm p hfl]
    have hmem : p ∈ input.flatten.map phraseCnt.phrase ↔
        p ∈ input'.flatten.map phraseCnt.phrase := (hfl.map _).mem_iff
    by_cases hp : p ∈ input.flatten.map phraseCnt.phrase
    · rw [if_pos hp, if_pos (hmem.1 hp)]
    · rw [if_neg hp, if_neg (fun h' => hp (hmem.2 h'))]
  exact ⟨heq, GoMap.perm_of_find?_eq _ _ (WF_collector _) (WF_collector _) heq⟩

/-- C2 at two slices received in either order. -/
theorem collector_perm_invariant_witness :
    (∀ p : String,
      (collector [[⟨"cat", 2⟩, ⟨"dog", 1⟩], [⟨"dog", 2⟩]]).find? p =
        (collector [[⟨"dog", 2⟩], [⟨"cat", 2⟩, ⟨"dog", 1⟩]]).find? p) ∧
    (collector [[⟨"cat", 2⟩, ⟨"dog", 1⟩], [⟨"dog", 2⟩]]).Perm
      (collector [[⟨"dog", 2⟩], [⟨"cat", 2⟩, ⟨"dog", 1⟩]]) :=
  collector_perm_invariant _ _ (List.Perm.swap _ _ _)

/-! ### normalize -/

theorem replaceAllLiteralString_empty (cls : Char → Bool) (text : String) :
    replaceAllLiteralString cls text "" = ⟨text.data.filter (fun c => !cls c)⟩ := by
  unfold replaceAllLiteralString
  congr 1
  induction text.data with
  | nil => rfl
  | cons c rest ih =>
    rw [List.flatMap_cons, ih]
    by_cases h : cls c <;> simp [List.filter_cons, h]

theorem replaceAllLiteralString_singleton (cls : Char → Bool) (text : String) (r : Char) :
    replaceAllLiteralString cls text (String.singleton r) =
      ⟨text.data.map (fun c => if cls c then r else c)⟩ := by
  unfold replaceAllLiteralString
  congr 1
  induction text.data with
  | nil => rfl
  | cons c rest ih =>
    rw [List.flatMap_cons, ih]
    by_cases h : cls c <;> simp [h, String.singleton]

theorem replacePolishDiacritics_eq (order : List (List Char × Char)) (text : String) :
    replacePolishDiacritics order text = ⟨text.data.map (foldChar order)⟩ := by
  unfold replacePolishDiacritics
  induction order generalizing text with
  | nil =>
    have h : foldChar [] = id := rfl
    rw [h, List.map_id]
    rfl
  | cons p rest ih =>
    rw [List.foldl_cons, ih, replaceAllLiteralString_singleton]
    refine congrArg String.mk ?_
    rw [List.map_map]
    apply List.map_congr_left
    intro c _
    rfl

theorem normalize_eq (toLower : Char → Char) (order : List (List Char × Char)) (text : String) :
    normalize toLower order text =
      ⟨(text.data.filter (fun c => !nonWord c)).map (fun c => foldChar order (toLower c))⟩ := by
  unfold normalize
  rw [replacePolishDiacritics_eq, replaceAllLiteralString_empty]
  simp [stringsToLower, Function.comp_def]

theorem replacements_disjoint :
    ∀ p ∈ replacements, ∀ q ∈ replacements, ∀ c ∈ p.1, q.1.contains c = true → q.2 = p.2 := by
  decide

theorem replacements_output_clean :
    ∀ p ∈ replacements, ∀ q ∈ replacements, q.1.contains p.2 = false := by
  decide

theorem replacements_output_letter :
    ∀ p ∈ replacements, nonWord p.2 = false ∧ p.2.toNat < 128 ∧ p.2.toLower = p.2 := by
  decide

theorem foldChar_of_no_match (o : List (List Char × Char)) (c : Char)
    (h : ∀ p ∈ o, p.1.contains c = false) : foldChar o c = c := by
  induction o with
  | nil => rfl
  | cons p rest ih =>
    have hp := h p (List.mem_cons_self _ _)
    have hr := ih (fun q hq => h q (List.mem_cons_of_mem _ hq))
    simp only [foldChar, List.foldl_cons, hp] at hr ⊢
    exact hr

theorem foldChar_of_match (o : List (List Char × Char)) (c : Char)
    (ho : ∀ q ∈ o, q ∈ replacements) (p : List Char × Char) (hp : p ∈ o)
    (hc : p.1.contains c = true) : foldChar o c = p.2 := by
  induction o with
  | nil => simp at hp
  | cons q rest ih =>
    have hq : q ∈ replacements := ho q (List.mem_cons_self _ _)
    have hpr : p ∈ replacements := ho p hp
    have hrest : ∀ q' ∈ rest, q' ∈ replacements := fun q' h => ho q' (List.mem_cons_of_mem _ h)
    by_cases hqc : q.1.contains c = true
    · have hcp : c ∈ p.1 := by simpa using hc
      have h2 : q.2 = p.2 := replacements_disjoint p hpr q hq c hcp hqc
      have hclean : foldChar rest q.2 = q.2 := by
        apply foldChar_of_no_match
        intro q' hq'
        exact replacements_output_clean q hq q' (hrest q' hq')
      simp only [foldChar, List.foldl_cons, hqc, if_true] at hclean ⊢
      rw [hclean, h2]
    · have hpq : p ≠ q := fun h => hqc (h ▸ hc)
      have hp' : p ∈ rest := by
        rcases List.mem_cons.1 hp with h | h
        · exact absurd h hpq
        · exact h
      have := ih hrest hp'
      simp only [foldChar, List.foldl_cons, hqc] at this ⊢
      exact this

theorem foldChar_perm (o : List (List Char × Char)) (ho : o.Perm replacements) (c : Char) :
    foldChar o c = foldChar replacements c := by
  have hsub : ∀ q ∈ o, q ∈ replacements := fun q hq => ho.mem_iff.1 hq
  by_cases h : ∃ p ∈ replacements, p.1.contains c = true
  · obtain ⟨p, hp, hc⟩ := h
    rw [foldChar_of_match o c hsub p (ho.mem_iff.2 hp) hc,
      foldChar_of_match replacements c (fun _ h => h) p hp hc]
  · have hno : ∀ p ∈ replacements, p.1.contains c = false := by
      intro p hp
      by_contra hcon
      exact h ⟨p, hp, by simpa using hcon⟩
    rw [foldChar_of_no_match o c (fun p hp => hno p (hsub p hp)),
      foldChar_of_no_match replacements c hno]

theorem normalize_order_irrelevant (toLower : Char → Char) (o : List (List Char × Char))
    (ho : o.Perm replacements) (text : String) :
    normalize toLower o text = normalize toLower replacements text := by
  rw [normalize_eq, normalize_eq]
  refine congrArg String.mk ?_
  apply List.map_congr_left
  intro c _
  exact foldChar_perm o ho _

theorem normalized_char (toLower : Char → Char) (hl : LowerOK toLower) (c : Char)
    (hc : nonWord c = false) :
    nonWord (foldChar replacements (toLower c)) = false ∧
    foldChar replacements (toLower (foldChar replacements (toLower c))) =
      foldChar replacements (toLower c) := by
  by_cases h : ∃ p ∈ replacements, p.1.contains (toLower c) = true
  · obtain ⟨p, hp, hpc⟩ := h
    have hfc : foldChar replacements (toLower c) = p.2 :=
      foldChar_of_match replacements _ (fun _ h => h) p hp hpc
    obtain ⟨h1, h2, h3⟩ := replacements_output_letter p hp
    rw [hfc, hl.ascii _ h2, h3]
    refine ⟨h1, ?_⟩
    apply foldChar_of_no_match
    intro q hq
    exact replacements_output_clean p hp q hq
  · have hno : ∀ p ∈ replacements, p.1.contains (toLower c) = false := by
      intro p hp
      by_contra hcon
      exact h ⟨p, hp, by simpa using hcon⟩
    have hfc : foldChar replacements (toLower c) = toLower c :=
      foldChar_of_no_match replacements _ hno
    rw [hfc, hl.idem, hfc]
    refine ⟨?_, rfl⟩
    by_contra hcon
    have := hl.keeps c (by simpa using hcon)
    rw [hc] at this
    exact absurd this (by simp)

theorem map_filter_map_idem {α : Type} (keep : α → Bool) (g : α → α) (l : List α)
    (h : ∀ c ∈ l, keep (g c) = true ∧ g (g c) = g c) :
    ((l.map g).filter keep).map g = l.map g := by
  have hkeep : ∀ d ∈ l.map g, keep d = true := by
    intro d hd
    obtain ⟨c, hc, rfl⟩ := List.mem_map.1 hd
    exact (h c hc).1
  rw [List.filter_eq_self.2 hkeep, List.map_map]
  apply List.map_congr_left
  intro c hc
  exact (h c hc).2

theorem normalize_idem_canonical (toLower : Char → Char) (hl : LowerOK toLower) (x : String) :
    normalize toLower replacements (normalize toLower replacements x) =
      normalize toLower replacements x := by
  simp only [normalize_eq]
  refine congrArg String.mk ?_
  apply map_filter_map_idem (fun c => !nonWord c) (fun c => foldChar replacements (toLower c))
  intro c hc
  have hc' : nonWord c = false := by simpa using (List.mem_filter.1 hc).2
  have h := normalized_char toLower hl c hc'
  exact ⟨by rw [h.1]; rfl, h.2⟩

/-! ### The reference environment is valid -/

theorem mem_of_lookup {l : List (Char × Char)} {c d : Char} (h : l.lookup c = some d) :
    (c, d) ∈ l := by
  induction l with
  | nil => simp at h
  | cons e rest ih =>
    obtain ⟨k, v⟩ := e
    by_cases hk : c = k
    · subst hk
      simp at h
      simp [h]
    · have hk' : (c == k) = false := by simpa using hk
      rw [List.lookup_cons, hk'] at h
      exact List.mem_cons_of_mem _ (ih h)

theorem lowerTable_ascii :
    ∀ n, n < 128 → refToLower (Char.ofNat n) = (Char.ofNat n).toLower := by
  decide

theorem lowerTable_idem : ∀ p ∈ lowerTable, lowerTable.lookup p.2 = none := by
  decide

theorem lowerTable_letters : ∀ p ∈ lowerTable, nonWord p.2 = false := by
  decide

theorem refToLower_ok : LowerOK refToLower where
  ascii := by
    intro c hc
    have := lowerTable_ascii c.toNat hc
    rwa [Char.ofNat_toNat] at this
  idem := by
    intro c
    cases h : lowerTable.lookup c with
    | none => simp [refToLower, h]
    | some d =>
      have hd := lowerTable_idem (c, d) (mem_of_lookup h)
      simp only [refToLower, h]
      simp only at hd
      rw [hd]
  keeps := by
    intro c hc
    cases h : lowerTable.lookup c with
    | none => simpa [refToLower, h] using hc
    | some d =>
      have hd := lowerTable_letters (c, d) (mem_of_lookup h)
      simp only [refToLower, h] at hc
      simp only at hd
      rw [hd] at hc
      exact absurd hc (by simp)

theorem orderedInsert_perm (less : phraseCnt → phraseCnt → Bool) (a : phraseCnt)
    (l : List phraseCnt) : (orderedInsert less a l).Perm (a :: l) := by
  induction l with
  | nil => exact List.Perm.refl _
  | cons b rest ih =>
    unfold orderedInsert
    split
    · exact ((List.Perm.cons b ih).trans (List.Perm.swap a b rest))
    · exact List.Perm.refl _

theorem refSortSlice_perm (less : phraseCnt → phraseCnt → Bool) (l : List phraseCnt) :
    (refSortSlice less l).Perm l := by
  induction l with
  | nil => exact List.Perm.refl _
  | cons a rest ih =>
    exact (orderedInsert_perm less a _).trans (List.Perm.cons a ih)

theorem orderedInsert_sorted (less : phraseCnt → phraseCnt → Bool)
    (hasym : ∀ a b, less a b = true → less b a = false)
    (htrans : ∀ a b c, less a b = false → less b c = false → less a c = false)
    (a : phraseCnt) (l : List phraseCnt)
    (hl : l.Pairwise (fun x y => less y x = false)) :
    (orderedInsert less a l).Pairwise (fun x y => less y x = false) := by
  induction l with
  | nil => simp [orderedInsert]
  | cons b rest ih =>
    rw [List.pairwise_cons] at hl
    unfold orderedInsert
    split
    · rename_i hba
      rw [List.pairwise_cons]
      refine ⟨?_, ih hl.2⟩
      intro y hy
      rcases List.mem_cons.1 ((orderedInsert_perm less a rest).mem_iff.1 hy) with h | h
      · subst h
        exact hasym _ _ hba
      · exact hl.1 y h
    · rename_i hba
      have hba' : less b a = false := by simpa using hba
      rw [List.pairwise_cons]
      refine ⟨?_, List.pairwise_cons.2 hl⟩
      intro y hy
      rcases List.mem_cons.1 hy with h | h
      · subst h
        exact hba'
      · exact htrans _ _ _ (hl.1 y h) hba'

theorem refSortSlice_sorted (less : phraseCnt → phraseCnt → Bool)
    (hasym : ∀ a b, less a b = true → less b a = false)
    (htrans : ∀ a b c, less a b = false → less b c = false → less a c = false)
    (l : List phraseCnt) :
    (refSortSlice less l).Pairwise (fun x y => less y x = false) := by
  induction l with
  | nil => simp [refSortSlice]
  | cons a rest ih => exact orderedInsert_sorted less hasym htrans a _ ih

theorem refEnv_valid (doc : String → Document) : (refEnv doc).Valid where
  lower := refToLower_ok
  replOrder_perm := fun _ => List.Perm.refl _
  rangeOrder_perm := fun _ => List.Perm.refl _
  sort_perm := refSortSlice_perm
  sort_sorted := fun less xs hasym htrans => refSortSlice_sorted less hasym htrans xs

/-! ### Idempotence of normalize -/

/-- C8: `normalize (normalize x) = normalize x` for every text `x`, whatever the
order in which each of the two calls ranges over `replacements`. -/
theorem normalize_idempotent (toLower : Char → Char) (hl : LowerOK toLower)
    (o₁ o₂ : List (List Char × Char)) (h₁ : o₁.Perm replacements) (h₂ : o₂.Perm replacements)
    (x : String) :
    normalize toLower o₂ (normalize toLower o₁ x) = normalize toLower o₁ x := by
  rw [normalize_order_irrelevant toLower o₂ h₂, normalize_order_irrelevant toLower o₁ h₁]
  exact normalize_idem_canonical toLower hl x

/-- C8 at the text of the specification's example, with the two calls ranging
over `replacements` in opposite orders. -/
theorem normalize_idempotent_witness :
    normalize refToLower replacements "Łąka, ŻYWA!" = "laka zywa" ∧
    normalize refToLower replacements.reverse (normalize refToLower replacements "Łąka, ŻYWA!") =
      normalize refToLower replacements "Łąka, ŻYWA!" :=
  ⟨by decide, normalize_idempotent refToLower refToLower_ok replacements replacements.reverse
    (List.Perm.refl _) (List.reverse_perm _) "Łąka, ŻYWA!"⟩

/-! ### worker -/

theorem addAll_append (st : GoMap) (xs ys : List (String × Nat)) :
    addAll st (xs ++ ys) = addAll (addAll st xs) ys := by
  simp [addAll, List.foldl_append]

theorem countRun_eq (env : Env) (m : GoMap) (rawText : String) :
    countRun env m rawText =
      addAll m ((fields (normalize env.toLower (env.replOrder rawText) rawText)).map
        (fun t => (t, 1))) := by
  simp [countRun, addAll, List.foldl_map]

theorem foldl_countRun (env : Env) (runs : List String) (m : GoMap) :
    runs.foldl (countRun env) m = addAll m ((tokens env runs).map (fun t => (t, 1))) := by
  induction runs generalizing m with
  | nil => rfl
  | cons r rest ih =>
    rw [List.foldl_cons, ih, countRun_eq]
    simp [tokens, List.flatMap_cons, addAll_append]

theorem phrasesCount_eq (env : Env) (runs : List String) :
    phrasesCount env runs = addAll [] ((tokens env runs).map (fun t => (t, 1))) :=
  foldl_countRun env runs []

theorem pairSum_ones (p : String) (toks : List String) :
    pairSum p (toks.map (fun t => (t, 1))) = toks.count p := by
  unfold pairSum
  induction toks with
  | nil => rfl
  | cons t rest ih =>
    by_cases h : t = p
    · subst h
      simp [List.filter_cons] at ih ⊢
      omega
    · have h' : (t == p) = false := by simpa using h
      simp [List.filter_cons, h, List.count_cons, h'] at ih ⊢
      exact ih

theorem find?_phrasesCount (env : Env) (runs : List String) (p : String) :
    (phrasesCount env runs).find? p =
      if p ∈ tokens env runs then some ((tokens env runs).count p % 2 ^ 32) else none := by
  rw [phrasesCount_eq, find?_addAll, pairSum_ones]
  simp [GoMap.get, GoMap.find?, Function.comp_def]

theorem WF_phrasesCount (env : Env) (runs : List String) : (phrasesCount env runs).WF := by
  rw [phrasesCount_eq]
  exact WF_addAll _ _ (by simp [GoMap.WF])

theorem phrasesCountAsSlice_perm (env : Env) (hv : env.Valid) (runs : List String) :
    (phrasesCountAsSlice env runs).Perm
      ((phrasesCount env runs).map (fun e => (⟨e.1, e.2⟩ : phraseCnt))) :=
  (hv.rangeOrder_perm _).map _

theorem mem_phrasesCountAsSlice (env : Env) (hv : env.Valid) (runs : List String)
    (t : String) (n : Nat) :
    (⟨t, n⟩ : phraseCnt) ∈ phrasesCountAsSlice env runs ↔
      t ∈ tokens env runs ∧ n = (tokens env runs).count t % 2 ^ 32 := by
  rw [(phrasesCountAsSlice_perm env hv runs).mem_iff]
  have hmem : (⟨t, n⟩ : phraseCnt) ∈
      (phrasesCount env runs).map (fun e => (⟨e.1, e.2⟩ : phraseCnt)) ↔
      (t, n) ∈ phrasesCount env runs := by
    constructor
    · intro h
      obtain ⟨⟨k, v⟩, hkv, heq⟩ := List.mem_map.1 h
      simp only [phraseCnt.mk.injEq] at heq
      rw [← heq.1, ← heq.2]
      exact hkv
    · intro h
      exact List.mem_map.2 ⟨(t, n), h, rfl⟩
  rw [hmem]
  constructor
  · intro h
    have hf := GoMap.find?_of_mem _ (WF_phrasesCount env runs) _ _ h
    rw [find?_phrasesCount] at hf
    by_cases ht : t ∈ tokens env runs
    · rw [if_pos ht] at hf
      exact ⟨ht, (Option.some.inj hf).symm⟩
    · rw [if_neg ht] at hf
      exact absurd hf (by simp)
  · rintro ⟨ht, hn⟩
    apply GoMap.mem_of_find?
    rw [find?_phrasesCount, if_pos ht, hn]

theorem nodup_phrasesCountAsSlice (env : Env) (hv : env.Valid) (runs : List String) :
    ((phrasesCountAsSlice env runs).map phraseCnt.phrase).Nodup := by
  have h := ((phrasesCountAsSlice_perm env hv runs).map phraseCnt.phrase).nodup_iff
  rw [h, List.map_map]
  exact WF_phrasesCount env runs

theorem tokens_replicate (env : Env) (raw : String) (toks : List String) (n : Nat)
    (h : fields (normalize env.toLower (env.replOrder raw) raw) = toks) :
    tokens env (List.replicate n raw) = (List.replicate n toks).flatten := by
  induction n with
  | zero => rfl
  | succ k ih =>
    rw [List.replicate_succ, List.replicate_succ, List.flatten_cons, ← ih]
    simp [tokens, List.flatMap_cons, h]

theorem flatten_replicate_singleton (t : String) (n : Nat) :
    (List.replicate n [t]).flatten = List.replicate n t := by
  induction n with
  | zero => rfl
  | succ k ih => rw [List.replicate_succ, List.flatten_cons, ih]; rfl

theorem normalize_ascii (toLower : Char → Char) (hl : LowerOK toLower)
    (o : List (List Char × Char)) (ho : o.Perm replacements) (text : String)
    (h : ∀ c ∈ text.data, c.toNat < 128) :
    normalize toLower o text = normalize Char.toLower replacements text := by
  rw [normalize_order_irrelevant toLower o ho, normalize_eq, normalize_eq]
  refine congrArg String.mk ?_
  apply List.map_congr_left
  intro c hc
  rw [hl.ascii c (h c (List.mem_filter.1 hc).1)]

theorem tokens_single_ascii (env : Env) (hv : env.Valid) (raw : String)
    (h : ∀ c ∈ raw.data, c.toNat < 128) :
    tokens env [raw] = fields (normalize Char.toLower replacements raw) := by
  simp [tokens, normalize_ascii env.toLower hv.lower _ (hv.replOrder_perm raw) raw h]

theorem find?_collector_of_perm (input : List (List phraseCnt)) (G : List phraseCnt)
    (h : input.flatten.Perm G) (p : String) :
    (collector input).find? p =
      if p ∈ G.map phraseCnt.phrase then some (countSum p G % 2 ^ 32) else none := by
  rw [find?_collector, countSum_perm p h]
  have hmem : p ∈ input.flatten.map phraseCnt.phrase ↔ p ∈ G.map phraseCnt.phrase :=
    (h.map _).mem_iff
  by_cases hp : p ∈ input.flatten.map phraseCnt.phrase
  · rw [if_pos hp, if_pos (hmem.1 hp)]
  · rw [if_neg hp, if_neg (fun h' => hp (hmem.2 h'))]

theorem example_pages (env : Env) (hv : env.Valid) (p : String) :
    (collector [phrasesCountAsSlice env ["Cat cat dog"],
      phrasesCountAsSlice env ["DOG dog"]]).find? p =
      GoMap.find? [("cat", 2), ("dog", 3)] p := by
  have h₁ : tokens env ["Cat cat dog"] = ["cat", "cat", "dog"] := by
    rw [tokens_single_ascii env hv _ (by decide)]
    decide
  have h₂ : tokens env ["DOG dog"] = ["dog", "dog"] := by
    rw [tokens_single_ascii env hv _ (by decide)]
    decide
  have e₁ : (phrasesCountAsSlice env ["Cat cat dog"]).Perm [⟨"cat", 2⟩, ⟨"dog", 1⟩] := by
    have h := phrasesCountAsSlice_perm env hv ["Cat cat dog"]
    rw [phrasesCount_eq, h₁] at h
    exact h
  have e₂ : (phrasesCountAsSlice env ["DOG dog"]).Perm [⟨"dog", 2⟩] := by
    have h := phrasesCountAsSlice_perm env hv ["DOG dog"]
    rw [phrasesCount_eq, h₂] at h
    exact h
  have hG : (List.flatten [phrasesCountAsSlice env ["Cat cat dog"],
      phrasesCountAsSlice env ["DOG dog"]]).Perm [⟨"cat", 2⟩, ⟨"dog", 1⟩, ⟨"dog", 2⟩] := by
    simp only [List.flatten_cons, List.flatten_nil, List.append_nil]
    exact e₁.append e₂
  rw [find?_collector_of_perm _ _ hG]
  by_cases hc : p = "cat"
  · subst hc
    decide
  · by_cases hd : p = "dog"
    · subst hd
      decide
    · have hc' : ¬ "cat" = p := fun h => hc h.symm
      have hd' : ¬ "dog" = p := fun h => hd h.symm
      simp [GoMap.find?, hc, hd, hc', hd']

/-- C6, amended: the slice a worker sends for a document has one tuple per
distinct token of the document, the count of a token is the number of its
occurrences among the fields of the normalized runs reduced modulo `2 ^ 32`
(so the number itself when that is below `2 ^ 32`), a document without a run
yields the empty slice, and the tables of the runs `"Cat cat dog"` and
`"DOG dog"` merge to `cat: 2, dog: 3`. -/
theorem worker_counts_tokens_mod_uint32 (env : Env) (hv : env.Valid) (runs : List String) :
    ((phrasesCountAsSlice env runs).map phraseCnt.phrase).Nodup ∧
    (∀ (t : String) (n : Nat), (⟨t, n⟩ : phraseCnt) ∈ phrasesCountAsSlice env runs ↔
      t ∈ tokens env runs ∧ n = (tokens env runs).count t % 2 ^ 32) ∧
    (∀ t ∈ tokens env runs, (tokens env runs).count t < 2 ^ 32 →
      (⟨t, (tokens env runs).count t⟩ : phraseCnt) ∈ phrasesCountAsSlice env runs) ∧
    phrasesCountAsSlice env [] = [] ∧
    (∀ p : String,
      (collector [phrasesCountAsSlice env ["Cat cat dog"],
        phrasesCountAsSlice env ["DOG dog"]]).find? p =
        GoMap.find? [("cat", 2), ("dog", 3)] p) := by
  refine ⟨nodup_phrasesCountAsSlice env hv runs, mem_phrasesCountAsSlice env hv runs, ?_, ?_,
    example_pages env hv⟩
  · intro t ht hlt
    rw [mem_phrasesCountAsSlice env hv, Nat.mod_eq_of_lt hlt]
    exact ⟨ht, rfl⟩
  · have h := phrasesCountAsSlice_perm env hv []
    exact List.Perm.eq_nil h

/-- C6 in the reference environment, on the two runs of the example at once. -/
theorem worker_counts_tokens_mod_uint32_witness :
    (refEnv fun _ _ => []).Valid ∧
    phrasesCountAsSlice (refEnv fun _ _ => []) ["Cat cat dog", "DOG dog"] =
      [⟨"cat", 2⟩, ⟨"dog", 3⟩] ∧
    ((⟨"dog", 3⟩ : phraseCnt) ∈
        phrasesCountAsSlice (refEnv fun _ _ => []) ["Cat cat dog", "DOG dog"] ↔
      "dog" ∈ tokens (refEnv fun _ _ => []) ["Cat cat dog", "DOG dog"] ∧
      3 = (tokens (refEnv fun _ _ => []) ["Cat cat dog", "DOG dog"]).count "dog" % 2 ^ 32) :=
  ⟨refEnv_valid _, by decide,
    (worker_counts_tokens_mod_uint32 (refEnv fun _ _ => []) (refEnv_valid _)
      ["Cat cat dog", "DOG dog"]).2.1 "dog" 3⟩

/-- C6 as stated fails: for a document of `4294967296` runs `"a"` the worker
sends the tuple `("a", 0)`, while the token `"a"` occurs `4294967296` times. -/
theorem worker_count_overflow :
    (⟨"a", 0⟩ : phraseCnt) ∈
      phrasesCountAsSlice (refEnv fun _ _ => []) (List.replicate 4294967296 "a") ∧
    (tokens (refEnv fun _ _ => []) (List.replicate 4294967296 "a")).count "a" = 4294967296 ∧
    (⟨"a", (tokens (refEnv fun _ _ => []) (List.replicate 4294967296 "a")).count "a"⟩ :
      phraseCnt) ∉ phrasesCountAsSlice (refEnv fun _ _ => []) (List.replicate 4294967296 "a") := by
  have htok : tokens (refEnv fun _ _ => []) (List.replicate 4294967296 "a") =
      List.replicate 4294967296 "a" := by
    rw [tokens_replicate _ "a" ["a"] _ (by decide), flatten_replicate_singleton]
  have hcount : (List.replicate 4294967296 "a").count "a" = 4294967296 :=
    List.count_replicate_self _ _
  have hmem : "a" ∈ List.replicate 4294967296 "a" := by
    rw [List.mem_replicate]
    exact ⟨by decide, rfl⟩
  refine ⟨?_, ?_, ?_⟩
  · rw [mem_phrasesCountAsSlice _ (refEnv_valid _), htok, hcount]
    exact ⟨hmem, by decide⟩
  · rw [htok, hcount]
  · rw [mem_phrasesCountAsSlice _ (refEnv_valid _), htok, hcount]
    rintro ⟨_, h⟩
    exact absurd h (by decide)

/-! ### sortByPhraseCount and printOutRanking -/

theorem set_length_append (pre : List phraseCnt) (z x : phraseCnt) (junk : List phraseCnt) :
    (pre ++ z :: junk).set pre.length x = pre ++ x :: junk := by
  induction pre with
  | nil => rfl
  | cons a rest ih => simp [List.set, ih]

theorem fillRanking_nil (r : List phraseCnt) (i : Nat) : fillRanking r i [] = r := by
  cases r <;> rfl

theorem fillRanking_cons (r : List phraseCnt) (i : Nat) (e : String × Nat)
    (rest : List (String × Nat)) :
    fillRanking r i (e :: rest) = fillRanking (r.set i ⟨e.1, e.2⟩) ((i + 1) % 2 ^ 32) rest := by
  obtain ⟨p, c⟩ := e
  cases r <;> rfl

theorem fillRanking_append (l : List (String × Nat)) (pre junk : List phraseCnt)
    (hj : l.length ≤ junk.length) (hb : pre.length + l.length ≤ 2 ^ 32) :
    fillRanking (pre ++ junk) pre.length l =
      pre ++ l.map (fun e => (⟨e.1, e.2⟩ : phraseCnt)) ++ junk.drop l.length := by
  induction l generalizing pre junk with
  | nil => simp [fillRanking_nil]
  | cons e rest ih =>
    cases junk with
    | nil => simp at hj
    | cons z junk' =>
      rw [fillRanking_cons, set_length_append]
      cases rest with
      | nil => simp [fillRanking_nil]
      | cons e' rest' =>
        simp only [List.length_cons] at hj hb
        have hlt : (pre.length + 1) % 2 ^ 32 = (pre ++ [(⟨e.1, e.2⟩ : phraseCnt)]).length := by
          simp only [List.length_append, List.length_cons, List.length_nil]
          exact Nat.mod_eq_of_lt (by omega)
        have hre : pre ++ (⟨e.1, e.2⟩ : phraseCnt) :: junk' = (pre ++ [⟨e.1, e.2⟩]) ++ junk' := by
          simp
        have h1 : (e' :: rest').length ≤ junk'.length := by
          simp only [List.length_cons]
          omega
        have h2 : (pre ++ [(⟨e.1, e.2⟩ : phraseCnt)]).length + (e' :: rest').length ≤ 2 ^ 32 := by
          simp only [List.length_append, List.length_cons, List.length_nil]
          omega
        rw [hlt, hre, ih _ _ h1 h2]
        simp

theorem fillRanking_full (l : List (String × Nat)) (n : Nat) (hn : l.length = n)
    (hb : n ≤ 2 ^ 32) :
    fillRanking (List.replicate n ⟨"", 0⟩) 0 l = l.map (fun e => (⟨e.1, e.2⟩ : phraseCnt)) := by
  have h := fillRanking_append l [] (List.replicate n ⟨"", 0⟩) (by simp [hn]) (by simpa [hn] using hb)
  simp only [List.nil_append, List.length_nil] at h
  rw [h, List.drop_of_length_le (by simp [hn]), List.append_nil]

theorem fillRanking_untouched (l : List (String × Nat)) (r : List phraseCnt) (i j : Nat)
    (hi : i < 2 ^ 32) (hj : 2 ^ 32 ≤ j) : (fillRanking r i l)[j]? = r[j]? := by
  induction l generalizing r i with
  | nil => rw [fillRanking_nil]
  | cons e rest ih =>
    rw [fillRanking_cons, ih _ _ (Nat.mod_lt _ (by decide)), List.getElem?_set_ne (by omega)]

theorem sortByPhraseCount_eq (env : Env) (hv : env.Valid) (m : GoMap) (hm : m.length ≤ 2 ^ 32) :
    sortByPhraseCount env m =
      env.sortSlice byCountDesc ((env.rangeOrder m).map (fun e => (⟨e.1, e.2⟩ : phraseCnt))) := by
  unfold sortByPhraseCount
  rw [fillRanking_full _ _ (hv.rangeOrder_perm m).length_eq hm]

theorem byCountDesc_asymm (a b : phraseCnt) (h : byCountDesc a b = true) :
    byCountDesc b a = false := by
  simp only [byCountDesc, decide_eq_true_eq, decide_eq_false_iff_not] at *
  omega

theorem byCountDesc_negTrans (a b c : phraseCnt) (h₁ : byCountDesc a b = false)
    (h₂ : byCountDesc b c = false) : byCountDesc a c = false := by
  simp only [byCountDesc, decide_eq_false_iff_not] at *
  omega

theorem sortByPhraseCount_perm (env : Env) (hv : env.Valid) (m : GoMap)
    (hm : m.length ≤ 2 ^ 32) :
    (sortByPhraseCount env m).Perm (m.map (fun e => (⟨e.1, e.2⟩ : phraseCnt))) := by
  rw [sortByPhraseCount_eq env hv m hm]
  exact (hv.sort_perm _ _).trans ((hv.rangeOrder_perm m).map _)

theorem sortByPhraseCount_sorted (env : Env) (hv : env.Valid) (m : GoMap)
    (hm : m.length ≤ 2 ^ 32) :
    (sortByPhraseCount env m).Pairwise (fun a b => a.count ≥ b.count) := by
  rw [sortByPhraseCount_eq env hv m hm]
  have h := hv.sort_sorted byCountDesc
    ((env.rangeOrder m).map (fun e => (⟨e.1, e.2⟩ : phraseCnt)))
    byCountDesc_asymm byCountDesc_negTrans
  refine h.imp ?_
  intro a b hab
  simp only [byCountDesc, decide_eq_false_iff_not] at hab
  omega

theorem printLoop_eq (limit : Int) (l : List phraseCnt) (i : Nat) :
    printLoop limit i l = (l.take (limit - i).toNat).map printfLine := by
  induction l generalizing i with
  | nil => simp [printLoop]
  | cons e rest ih =>
    unfold printLoop
    split
    · rename_i h
      have : (limit - (i : Int)).toNat = 0 := by omega
      rw [this]
      rfl
    · rename_i h
      have : (limit - (i : Int)).toNat = (limit - ((i + 1 : Nat) : Int)).toNat + 1 := by omega
      rw [this, ih]
      rfl

theorem printOutRanking_eq (env : Env) (m : GoMap) (limit : Int) :
    printOutRanking env m limit =
      ((sortByPhraseCount env m).take limit.toNat).map printfLine := by
  unfold printOutRanking
  rw [printLoop_eq]
  simp

theorem printfLine_eq (elem : phraseCnt) :
    printfLine elem = Nat.repr elem.count ++ " \t\t\t" ++ elem.phrase ++ "\n" := by
  apply String.ext
  simp [printfLine, sprintf, fmtV]

theorem bigTable_WF : GoMap.WF bigTable := by
  unfold GoMap.WF bigTable
  rw [List.map_map]
  refine List.Nodup.map ?_ (List.nodup_range _)
  intro i j hij
  have := congrArg String.length hij
  simp only [Function.comp_apply, String.length, List.length_replicate] at this
  omega

theorem bigTable_length : bigTable.length = 4294967297 := by
  unfold bigTable
  rw [List.length_map, List.length_range]

theorem bigTable_counts : ∀ e ∈ bigTable, e.2 = 1 := by
  intro e he
  unfold bigTable at he
  obtain ⟨i, _, rfl⟩ := List.mem_map.1 he
  rfl

theorem sortByPhraseCount_refEnv (doc : String → Document) (m : GoMap) :
    sortByPhraseCount (refEnv doc) m =
      refSortSlice byCountDesc (fillRanking (List.replicate m.length ⟨"", 0⟩) 0 m) :=
  rfl

theorem zero_mem_ranking_bigTable :
    (⟨"", 0⟩ : phraseCnt) ∈ sortByPhraseCount (refEnv fun _ _ => []) bigTable := by
  rw [sortByPhraseCount_refEnv, (refSortSlice_perm _ _).mem_iff]
  apply List.getElem?_mem (n := 4294967296)
  rw [fillRanking_untouched _ _ 0 4294967296 (by norm_num) (by norm_num), bigTable_length,
    List.getElem?_replicate_of_lt (by norm_num)]

/-- C3, amended: for a table of at most `2 ^ 32` entries and any limit,
`printOutRanking` prints exactly the first `min(limit, n)` elements of the result
of `sortByPhraseCount` (none for a negative limit), that result is a permutation
of the entries of the table in non-increasing order of count, and every printed
entry has a count at least as large as every entry left out. -/
theorem ranking_sorted_and_truncated (env : Env) (hv : env.Valid) (m : GoMap)
    (hm : m.length ≤ 2 ^ 32) (limit : Int) :
    printOutRanking env m limit =
      ((sortByPhraseCount env m).take (min limit.toNat m.length)).map printfLine ∧
    (sortByPhraseCount env m).Perm (m.map (fun e => (⟨e.1, e.2⟩ : phraseCnt))) ∧
    (sortByPhraseCount env m).Pairwise (fun a b => a.count ≥ b.count) ∧
    (∀ a ∈ (sortByPhraseCount env m).take (min limit.toNat m.length),
      ∀ b ∈ (sortByPhraseCount env m).drop (min limit.toNat m.length), a.count ≥ b.count) := by
  have hperm := sortByPhraseCount_perm env hv m hm
  have hsorted := sortByPhraseCount_sorted env hv m hm
  have hlen : (sortByPhraseCount env m).length = m.length := by
    rw [hperm.length_eq, List.length_map]
  have htake : (sortByPhraseCount env m).take (min limit.toNat m.length) =
      (sortByPhraseCount env m).take limit.toNat := by
    rw [← hlen]
    by_cases h : limit.toNat ≤ (sortByPhraseCount env m).length
    · rw [Nat.min_eq_left h]
    · have h' : (sortByPhraseCount env m).length ≤ limit.toNat := by omega
      rw [Nat.min_eq_right h', List.take_of_length_le h', List.take_of_length_le (Nat.le_refl _)]
  refine ⟨?_, hperm, hsorted, ?_⟩
  · rw [printOutRanking_eq, htake]
  · intro a ha b hb
    have hsplit := List.take_append_drop (min limit.toNat m.length) (sortByPhraseCount env m)
    rw [← hsplit, List.pairwise_append] at hsorted
    exact hsorted.2.2 a ha b hb

/-- C3 on the table `cat: 2, dog: 3` with limit 1: only the line of `dog` is printed. -/
theorem ranking_sorted_and_truncated_witness :
    sortByPhraseCount (refEnv fun _ _ => []) [("cat", 2), ("dog", 3)] =
      [⟨"dog", 3⟩, ⟨"cat", 2⟩] ∧
    printOutRanking (refEnv fun _ _ => []) [("cat", 2), ("dog", 3)] 1 =
      ((sortByPhraseCount (refEnv fun _ _ => []) [("cat", 2), ("dog", 3)]).take
        (min (1 : Int).toNat [("cat", 2), ("dog", 3)].length)).map printfLine :=
  ⟨by decide, (ranking_sorted_and_truncated (refEnv fun _ _ => []) (refEnv_valid _)
    [("cat", 2), ("dog", 3)] (by decide) 1).1⟩

/-- C3 as stated fails: on a table of `2 ^ 32 + 1` distinct phrases, all of count 1,
the `uint32` index of `sortByPhraseCount` wraps around, the last slot of `ranking`
keeps its zero value, and the result is no permutation of the entries. -/
theorem ranking_index_overflow :
    GoMap.WF bigTable ∧ bigTable.length = 2 ^ 32 + 1 ∧
    ¬ (sortByPhraseCount (refEnv fun _ _ => []) bigTable).Perm
      (bigTable.map (fun e => (⟨e.1, e.2⟩ : phraseCnt))) := by
  refine ⟨bigTable_WF, bigTable_length, ?_⟩
  intro h
  have hz := h.mem_iff.1 zero_mem_ranking_bigTable
  obtain ⟨e, he, heq⟩ := List.mem_map.1 hz
  have h1 := bigTable_counts e he
  simp only [phraseCnt.mk.injEq] at heq
  omega

/-- C4, amended: every line `printOutRanking` prints is the decimal count, a
blank, three tab characters, the phrase and a newline, for an element of the
ranking. -/
theorem printed_line_format (env : Env) (m : GoMap) (limit : Int) :
    (∀ elem : phraseCnt,
      printfLine elem = Nat.repr elem.count ++ " \t\t\t" ++ elem.phrase ++ "\n") ∧
    (∀ line ∈ printOutRanking env m limit, ∃ elem ∈ sortByPhraseCount env m,
      line = Nat.repr elem.count ++ " \t\t\t" ++ elem.phrase ++ "\n") := by
  refine ⟨printfLine_eq, ?_⟩
  intro line hline
  rw [printOutRanking_eq] at hline
  obtain ⟨elem, helem, rfl⟩ := List.mem_map.1 hline
  exact ⟨elem, List.mem_of_mem_take helem, printfLine_eq elem⟩

/-- C4 as stated fails: the line printed for `("dog", 3)` is
`"3 \t\t\tdog\n"`, with a blank and three tabs, not `"3\tdog\n"`. -/
theorem printed_line_not_single_tab :
    printOutRanking (refEnv fun _ _ => []) [("dog", 3)] 1 = ["3 \t\t\tdog\n"] ∧
    printfLine ⟨"dog", 3⟩ ≠ "3\tdog\n" := by
  decide

/-! ### initJobs -/

theorem sprintf_v_uint (i : Nat) : (⟨sprintf "%v".data [.uint i]⟩ : String) = Nat.repr i := by
  apply String.ext
  simp [sprintf, fmtV]

theorem initJobsLoop_succ (bits : Nat) (received : Nat → Bool) (threadURL : String)
    (last fuel i k : Nat) :
    initJobsLoop bits received threadURL last (fuel + 1) i k =
      if i ≤ last then
        if received k then
          (initJobsLoop bits received threadURL last fuel ((i + 1) % 2 ^ bits) (k + 1)).map
            (InitJobsRun.after (.send (threadURL ++ Nat.repr i)))
        else some (.blocked [])
      else some (.returned [.close]) := by
  rw [initJobsLoop, sprintf_v_uint]

theorem sendsFrom_succ (threadURL : String) (i n : Nat) :
    sendsFrom threadURL i (n + 1) =
      ChanOp.send (threadURL ++ Nat.repr i) :: sendsFrom threadURL (i + 1) n := by
  unfold sendsFrom
  simp only [List.range_succ_eq_map, List.map_cons, List.map_map, Nat.add_zero]
  congr 1
  apply List.map_congr_left
  intro j _
  simp only [Function.comp_apply, Nat.succ_eq_add_one]
  congr 3
  omega

theorem initJobsLoop_returns (bits : Nat) (received : Nat → Bool) (threadURL : String)
    (last : Nat) (hb : last + 1 < 2 ^ bits) (n : Nat) :
    ∀ fuel i k, i + n = last + 1 → n < fuel → (∀ j, j < n → received (k + j) = true) →
      initJobsLoop bits received threadURL last fuel i k =
        some (.returned (sendsFrom threadURL i n ++ [ChanOp.close])) := by
  induction n with
  | zero =>
    intro fuel i k hi hf _
    obtain ⟨f, rfl⟩ : ∃ f, fuel = f + 1 := ⟨fuel - 1, by omega⟩
    rw [initJobsLoop_succ, if_neg (by omega)]
    rfl
  | succ n ih =>
    intro fuel i k hi hf hr
    obtain ⟨f, rfl⟩ : ∃ f, fuel = f + 1 := ⟨fuel - 1, by omega⟩
    have hk : received k = true := by simpa using hr 0 (by omega)
    have hr' : ∀ j, j < n → received (k + 1 + j) = true := by
      intro j hj
      have := hr (j + 1) (by omega)
      rwa [show k + (j + 1) = k + 1 + j by omega] at this
    rw [initJobsLoop_succ, if_pos (by omega), if_pos hk, Nat.mod_eq_of_lt (by omega),
      ih f (i + 1) (k + 1) (by omega) (by omega) hr', sendsFrom_succ]
    rfl

theorem initJobsLoop_blocks (bits : Nat) (received : Nat → Bool) (threadURL : String)
    (last : Nat) (hb : last + 1 < 2 ^ bits) (m : Nat) :
    ∀ fuel i k, i + m ≤ last → m < fuel → (∀ j, j < m → received (k + j) = true) →
      received (k + m) = false →
      initJobsLoop bits received threadURL last fuel i k =
        some (.blocked (sendsFrom threadURL i m)) := by
  induction m with
  | zero =>
    intro fuel i k hi hf _ hm
    obtain ⟨f, rfl⟩ : ∃ f, fuel = f + 1 := ⟨fuel - 1, by omega⟩
    have hk : received k = false := by simpa using hm
    rw [initJobsLoop_succ, if_pos (by omega), hk]
    rfl
  | succ m ih =>
    intro fuel i k hi hf hr hm
    obtain ⟨f, rfl⟩ : ∃ f, fuel = f + 1 := ⟨fuel - 1, by omega⟩
    have hk : received k = true := by simpa using hr 0 (by omega)
    have hr' : ∀ j, j < m → received (k + 1 + j) = true := by
      intro j hj
      have := hr (j + 1) (by omega)
      rwa [show k + (j + 1) = k + 1 + j by omega] at this
    have hm' : received (k + 1 + m) = false := by
      rwa [show k + (m + 1) = k + 1 + m by omega] at hm
    rw [initJobsLoop_succ, if_pos (by omega), if_pos hk, Nat.mod_eq_of_lt (by omega),
      ih f (i + 1) (k + 1) (by omega) (by omega) hr' hm', sendsFrom_succ]
    rfl

theorem initJobsLoop_diverges (bits : Nat) (received : Nat → Bool) (threadURL : String)
    (last : Nat) (hl : last + 1 = 2 ^ bits) (hr : ∀ k, received k = true) :
    ∀ fuel i k, i < 2 ^ bits → initJobsLoop bits received threadURL last fuel i k = none := by
  intro fuel
  induction fuel with
  | zero => intro i k _; rfl
  | succ f ih =>
    intro i k hi
    rw [initJobsLoop_succ, if_pos (by omega), if_pos (hr k), ih _ _ (Nat.mod_lt _ (by omega))]
    rfl

/-- C5, amended: for every base URL and every `start ≤ end` with `end` below the
largest `uint`, if every send on the unbuffered queue is received by a worker,
`initJobs` terminates (any fuel above `end - start + 1` is enough) and the
operations it performs on the queue are exactly `end - start + 1` sends, the
`k`-th of `threadURL` followed by the decimal representation of `start + k`, in
ascending order, and then the close; and if the send number `m` is the first
that no worker receives, `initJobs` blocks there, having pushed the first `m`
jobs and not closed the queue. -/
theorem initJobs_sends_range_then_closes (bits : Nat) (received : Nat → Bool)
    (threadURL : String) (start last : Nat) (h : start ≤ last) (hb : last + 1 < 2 ^ bits)
    (fuel : Nat) (hf : last - start + 1 < fuel) :
    ((∀ k, k < last - start + 1 → received k = true) →
      initJobs bits fuel received threadURL start last =
        some (.returned ((List.range (last - start + 1)).map
          (fun k => ChanOp.send (threadURL ++ Nat.repr (start + k))) ++ [ChanOp.close]))) ∧
    (∀ m, m < last - start + 1 → (∀ k, k < m → received k = true) → received m = false →
      initJobs bits fuel received threadURL start last =
        some (.blocked ((List.range m).map
          (fun k => ChanOp.send (threadURL ++ Nat.repr (start + k)))))) := by
  refine ⟨fun hr => ?_, fun m hm hr hmf => ?_⟩
  · exact initJobsLoop_returns bits received threadURL last hb (last - start + 1) fuel start 0
      (by omega) hf (by simpa using hr)
  · exact initJobsLoop_blocks bits received threadURL last hb m fuel start 0 (by omega)
      (by omega) (by simpa using hr) (by simpa using hmf)

/-- C5 on the pages 3 to 5, with every send received. -/
theorem initJobs_sends_range_then_closes_witness :
    initJobs 64 10 (fun _ => true) "u/" 3 5 =
      some (.returned [ChanOp.send "u/3", ChanOp.send "u/4", ChanOp.send "u/5",
        ChanOp.close]) ∧
    initJobs 64 10 (fun _ => true) "u/" 3 5 =
      some (.returned ((List.range (5 - 3 + 1)).map
        (fun k => ChanOp.send ("u/" ++ Nat.repr (3 + k))) ++ [ChanOp.close])) :=
  ⟨by decide, (initJobs_sends_range_then_closes 64 (fun _ => true) "u/" 3 5 (by decide)
    (by decide) 10 (by decide)).1 (fun _ _ => rfl)⟩

/-- C5 as stated fails twice.  When no worker receives (`main` started none, as
with `-workers 0`), `initJobs` on the pages 3 to 5 blocks in its first send,
having pushed nothing and closed nothing.  And with `start = end = 2 ^ 64 - 1`
on a 64-bit platform, every send being received, the counter wraps around to 0
after the first send, `i <= end` stays true, and `initJobs` never returns,
whatever the fuel. -/
theorem initJobs_blocks_or_never_returns :
    (∀ fuel, initJobs 64 (fuel + 1) (fun _ => false) "u/" 3 5 = some (.blocked [])) ∧
    (¬ ∃ fuel run, initJobs 64 fuel (fun _ => true) "u/"
      18446744073709551615 18446744073709551615 = some run) := by
  refine ⟨fun fuel => ?_, ?_⟩
  · unfold initJobs
    rw [initJobsLoop_succ, if_pos (by decide)]
    rfl
  · rintro ⟨fuel, run, h⟩
    have hnone := initJobsLoop_diverges 64 (fun _ => true) "u/" 18446744073709551615
      (by norm_num) (fun _ => rfl) fuel 18446744073709551615 0 (by norm_num)
    unfold initJobs at h
    rw [hnone] at h
    exact absurd h (by simp)

/-! ### main and spawnWorkers -/

theorem jobSize_eq (bits start last : Nat) (h : start ≤ last) (hb : last - start + 1 < 2 ^ bits) :
    jobSize bits start last = last - start + 1 := by
  unfold jobSize
  have h1 : last + 2 ^ bits - start = (last - start) + 2 ^ bits := by omega
  have h2 : (last - start) % 2 ^ bits = last - start := Nat.mod_eq_of_lt (by omega)
  rw [h1, Nat.add_mod_right, h2, Nat.mod_eq_of_lt hb]

theorem spawnLoop_spec (bits howMany : Nat) (hh : howMany < 2 ^ bits) (k : Nat) :
    ∀ fuel i spawned, i + k = howMany → k < fuel →
      spawnLoop bits howMany fuel i spawned = some (spawned + k) := by
  induction k with
  | zero =>
    intro fuel i spawned hi hf
    obtain ⟨f, rfl⟩ : ∃ f, fuel = f + 1 := ⟨fuel - 1, by omega⟩
    rw [spawnLoop, if_neg (by omega)]
    rfl
  | succ k ih =>
    intro fuel i spawned hi hf
    obtain ⟨f, rfl⟩ : ∃ f, fuel = f + 1 := ⟨fuel - 1, by omega⟩
    rw [spawnLoop, if_pos (by omega), Nat.mod_eq_of_lt (by omega),
      ih f (i + 1) (spawned + 1) (by omega) (by omega)]
    congr 1
    omega

theorem getArguments_ok (a : Args) (hl : a.last ≠ 0) (hu : a.threadURL ≠ "")
    (hs : a.selector ≠ "") : getArguments a = .ok a := by
  unfold getArguments
  rw [if_neg]
  rintro (h | h | h)
  · exact hl h
  · exact hu h
  · exact hs h

theorem getArguments_exit (a : Args) (h : a.last = 0 ∨ a.threadURL = "" ∨ a.selector = "") :
    getArguments a = .error 1 := by
  unfold getArguments
  rw [if_pos h]

theorem spawnWorkers_clamped (bits nworkers start last : Nat) (h : start ≤ last)
    (hn : nworkers < 2 ^ bits) (hb : last - start + 1 < 2 ^ bits) (fuel : Nat)
    (hf : min nworkers (last - start + 1) < fuel) :
    spawnWorkers bits fuel (clampWorkers bits nworkers start last) =
      some (min nworkers (last - start + 1)) := by
  unfold spawnWorkers clampWorkers
  rw [jobSize_eq bits start last h hb]
  have hclamp : (if nworkers > last - start + 1 then last - start + 1 else nworkers) =
      min nworkers (last - start + 1) := by
    split <;> omega
  rw [hclamp, spawnLoop_spec bits _ (by omega) (min nworkers (last - start + 1)) fuel 0 0
    (by omega) hf]
  simp

/-- C7, amended: for arguments that pass the check of `getArguments` (`end` is
not 0, `threadURL` and `selector` are not empty), with `start ≤ end` and a job
count `end - start + 1` that fits in a `uint` (every range but `start = 0`,
`end` the largest `uint`), `main` starts exactly
`min(requested, end - start + 1)` workers, any fuel above that number being
enough for the loop of `spawnWorkers`; and for arguments that fail the check,
`main` exits with status 1 before it starts any worker. -/
theorem main_spawns_min_workers (bits fuel : Nat) (a : Args) (hl : a.last ≠ 0)
    (hu : a.threadURL ≠ "") (hs : a.selector ≠ "") (h : a.start ≤ a.last)
    (hn : a.workers < 2 ^ bits) (hb : a.last - a.start + 1 < 2 ^ bits)
    (hf : min a.workers (a.last - a.start + 1) < fuel) :
    mainWorkers bits fuel a = some (.spawned (min a.workers (a.last - a.start + 1))) ∧
    ∀ b : Args, (b.last = 0 ∨ b.threadURL = "" ∨ b.selector = "") →
      mainWorkers bits fuel b = some (.exited 1) := by
  constructor
  · unfold mainWorkers
    rw [getArguments_ok a hl hu hs]
    simp only []
    rw [spawnWorkers_clamped bits a.workers a.start a.last h hn hb fuel hf]
    rfl
  · intro b hbad
    unfold mainWorkers
    rw [getArguments_exit b hbad]

/-- C7 on the example `start = 5, end = 5, workers = 10`: one worker. -/
theorem main_spawns_min_workers_witness :
    mainWorkers 64 100 ⟨"u/", "p", "", 5, 5, 10, 2147483647⟩ = some (.spawned 1) ∧
    mainWorkers 64 100 ⟨"u/", "p", "", 5, 5, 10, 2147483647⟩ =
      some (.spawned (min 10 (5 - 5 + 1))) :=
  ⟨by decide, (main_spawns_min_workers 64 100 ⟨"u/", "p", "", 5, 5, 10, 2147483647⟩
    (by decide) (by decide) (by decide) (by decide) (by decide) (by decide) (by decide)).1⟩

/-- C7 as stated fails twice.  With `start = end = 0` and 10 requested workers,
`getArguments` takes `end = 0` for a missing argument and `main` exits without
starting a worker, while `min(10, end - start + 1)` is 1.  And with `start = 0`,
`end = 2 ^ 64 - 1` and 10 requested workers on a 64-bit platform, `jobSize`
wraps around to 0 and `main` starts no worker, while `min(10, end - start + 1)`
is 10. -/
theorem main_exits_or_spawns_no_worker :
    (mainWorkers 64 100 ⟨"u/", "p", "", 0, 0, 10, 2147483647⟩ = some (.exited 1) ∧
      min 10 (0 - 0 + 1) = 1 ∧
      ∀ fuel, mainWorkers 64 fuel ⟨"u/", "p", "", 0, 0, 10, 2147483647⟩ ≠
        some (.spawned 1)) ∧
    (jobSize 64 0 18446744073709551615 = 0 ∧
      mainWorkers 64 100 ⟨"u/", "p", "", 0, 18446744073709551615, 10, 2147483647⟩ =
        some (.spawned 0) ∧
      min 10 (18446744073709551615 - 0 + 1) = 10 ∧
      ∀ fuel, mainWorkers 64 fuel ⟨"u/", "p", "", 0, 18446744073709551615, 10, 2147483647⟩ ≠
        some (.spawned 10)) := by
  refine ⟨⟨by decide, by decide, fun fuel => ?_⟩, ⟨by decide, by decide, by decide, fun fuel => ?_⟩⟩
  · have : mainWorkers 64 fuel ⟨"u/", "p", "", 0, 0, 10, 2147483647⟩ = some (.exited 1) := by
      unfold mainWorkers
      rw [getArguments_exit _ (Or.inl rfl)]
    rw [this]
    decide
  · cases fuel with
    | zero => decide
    | succ f =>
      have : mainWorkers 64 (f + 1) ⟨"u/", "p", "", 0, 18446744073709551615, 10, 2147483647⟩ =
          some (.spawned 0) := by
        unfold mainWorkers
        rw [getArguments_ok _ (by decide) (by decide) (by decide)]
        simp only []
        have hc : clampWorkers 64 10 0 18446744073709551615 = 0 := by decide
        rw [hc]
        unfold spawnWorkers
        rw [spawnLoop, if_neg (by omega)]
        rfl
      rw [this]
      decide

/-! ### getResponse and the failure path -/

theorem getResponse_error_of_fails (env : Env) (site : String) (h : fetchFails env site = true) :
    ∃ p, getResponse env site = .error p ∧ ∀ e, p ≠ Panic.parse e := by
  unfold fetchFails at h
  unfold getResponse
  cases hg : env.httpGet site with
  | error err => exact ⟨_, rfl, fun e he => by cases he⟩
  | ok resp =>
    rw [hg] at h
    simp only [decide_eq_true_eq] at h
    simp only [h, ne_eq, not_false_eq_true, if_true]
    exact ⟨_, rfl, fun e he => by cases he⟩

theorem getResponse_ok_of_not_fails (env : Env) (site : String)
    (h : fetchFails env site = false) :
    ∃ resp, env.httpGet site = .ok resp ∧ resp.statusCode = 200 ∧
      getResponse env site = .ok resp := by
  unfold fetchFails at h
  unfold getResponse
  cases hg : env.httpGet site with
  | error err => rw [hg] at h; exact absurd h (by simp)
  | ok resp =>
    rw [hg] at h
    simp only [decide_eq_false_iff_not, ne_eq, not_not] at h
    exact ⟨resp, rfl, h, by simp [h]⟩

theorem fetchFails_of_fetchFailsSpec (env : Env) (site : String)
    (h : fetchFailsSpec env site = true) : fetchFails env site = true := by
  unfold fetchFailsSpec at h
  unfold fetchFails
  cases hg : env.httpGet site with
  | error err => rfl
  | ok resp =>
    rw [hg] at h
    simp only [isSuccessStatus, Bool.not_eq_true', Bool.and_eq_false_iff, decide_eq_false_iff_not,
      not_le, not_lt] at h
    simp only [ne_eq, decide_eq_true_eq]
    omega

theorem sentTables_defers (deferred : List Response) (tail : List WorkerEvent)
    (h : sentTables tail = []) :
    sentTables (deferred.map WorkerEvent.bodyClose ++ tail) = [] := by
  induction deferred with
  | nil => exact h
  | cons r rest ih => exact ih

theorem workerLoop_fetch_error (env : Env) (selector job : String) (jobs : List String)
    (deferred : List Response) (p : Panic) (h : getResponse env job = .error p) :
    workerLoop env selector (job :: jobs) deferred =
      .panic p :: (deferred.map WorkerEvent.bodyClose ++ [.wgDone, .crash]) := by
  rw [workerLoop, h]

theorem workerLoop_parse_error (env : Env) (selector job : String) (jobs : List String)
    (deferred : List Response) (resp : Response) (p : Panic)
    (h : getResponse env job = .ok resp) (h' : getHtml env resp = .error p) :
    workerLoop env selector (job :: jobs) deferred =
      .panic p :: (deferred.map WorkerEvent.bodyClose ++ [.wgDone, .crash]) := by
  rw [workerLoop, h]
  simp only []
  rw [h']

theorem workerLoop_ok (env : Env) (selector job : String) (jobs : List String)
    (deferred : List Response) (resp : Response) (doc : Document)
    (h : getResponse env job = .ok resp) (h' : getHtml env resp = .ok doc) :
    workerLoop env selector (job :: jobs) deferred =
      .send (phrasesCountAsSlice env (doc selector)) :: .jobDone job ::
        workerLoop env selector jobs (resp :: deferred) := by
  rw [workerLoop, h]
  simp only []
  rw [h']

theorem getHtml_error_is_parse (env : Env) (resp : Response) (p : Panic)
    (h : getHtml env resp = .error p) : ∃ e, p = Panic.parse e := by
  unfold getHtml at h
  cases hd : env.newDocumentFromReader resp.body with
  | error err =>
    rw [hd] at h
    simp only [Except.error.injEq] at h
    exact ⟨err, h.symm⟩
  | ok doc =>
    rw [hd] at h
    cases h

theorem workerLoop_wgDone (env : Env) (selector : String) (jobs : List String) :
    ∀ deferred, WorkerEvent.wgDone ∈ workerLoop env selector jobs deferred := by
  induction jobs with
  | nil =>
    intro deferred
    simp [workerLoop]
  | cons job rest ih =>
    intro deferred
    cases hr : getResponse env job with
    | error p => rw [workerLoop_fetch_error _ _ _ _ _ _ hr]; simp
    | ok resp =>
      cases hd : getHtml env resp with
      | error p => rw [workerLoop_parse_error _ _ _ _ _ _ _ hr hd]; simp
      | ok doc =>
        rw [workerLoop_ok _ _ _ _ _ _ _ hr hd]
        exact List.mem_cons_of_mem _ (List.mem_cons_of_mem _ (ih _))

theorem workerLoop_panics (env : Env) (selector : String) (jobs : List String)
    (h : ∃ job ∈ jobs, fetchFails env job = true) :
    ∀ deferred, ∃ p, WorkerEvent.panic p ∈ workerLoop env selector jobs deferred ∧
      WorkerEvent.crash ∈ workerLoop env selector jobs deferred := by
  induction jobs with
  | nil => simp at h
  | cons job rest ih =>
    intro deferred
    cases hr : getResponse env job with
    | error p =>
      rw [workerLoop_fetch_error _ _ _ _ _ _ hr]
      exact ⟨p, by simp, by simp⟩
    | ok resp =>
      cases hd : getHtml env resp with
      | error p =>
        rw [workerLoop_parse_error _ _ _ _ _ _ _ hr hd]
        exact ⟨p, by simp, by simp⟩
      | ok doc =>
        rw [workerLoop_ok _ _ _ _ _ _ _ hr hd]
        have hrest : ∃ j ∈ rest, fetchFails env j = true := by
          obtain ⟨j, hj, hf⟩ := h
          rcases List.mem_cons.1 hj with hjj | hjj
          · subst hjj
            obtain ⟨p, hp, _⟩ := getResponse_error_of_fails env j hf
            rw [hp] at hr
            cases hr
          · exact ⟨j, hjj, hf⟩
        obtain ⟨p, hp, hc⟩ := ih hrest (resp :: deferred)
        exact ⟨p, List.mem_cons_of_mem _ (List.mem_cons_of_mem _ hp),
          List.mem_cons_of_mem _ (List.mem_cons_of_mem _ hc)⟩

theorem workerLoop_stops (env : Env) (selector : String) (before : List String)
    (job : String) (after : List String) (h : fetchFails env job = true) :
    ∀ deferred, workerLoop env selector (before ++ job :: after) deferred =
        workerLoop env selector (before ++ [job]) deferred ∧
      (sentTables (workerLoop env selector (before ++ job :: after) deferred)).length ≤
        before.length := by
  obtain ⟨p, hp, _⟩ := getResponse_error_of_fails env job h
  induction before with
  | nil =>
    intro deferred
    simp only [List.nil_append, List.length_nil, Nat.le_zero_eq, List.length_eq_zero]
    rw [workerLoop_fetch_error _ _ _ _ _ _ hp, workerLoop_fetch_error _ _ _ _ _ _ hp]
    exact ⟨rfl, sentTables_defers deferred _ rfl⟩
  | cons b rest ih =>
    intro deferred
    simp only [List.cons_append, List.length_cons]
    cases hr : getResponse env b with
    | error q =>
      rw [workerLoop_fetch_error _ _ _ _ _ _ hr, workerLoop_fetch_error _ _ _ _ _ _ hr]
      refine ⟨rfl, ?_⟩
      have : sentTables (WorkerEvent.panic q ::
          (deferred.map WorkerEvent.bodyClose ++ [.wgDone, .crash])) = [] :=
        sentTables_defers deferred _ rfl
      rw [this]
      simp
    | ok resp =>
      cases hd : getHtml env resp with
      | error q =>
        rw [workerLoop_parse_error _ _ _ _ _ _ _ hr hd,
          workerLoop_parse_error _ _ _ _ _ _ _ hr hd]
        refine ⟨rfl, ?_⟩
        have : sentTables (WorkerEvent.panic q ::
            (deferred.map WorkerEvent.bodyClose ++ [.wgDone, .crash])) = [] :=
          sentTables_defers deferred _ rfl
        rw [this]
        simp
      | ok doc =>
        rw [workerLoop_ok _ _ _ _ _ _ _ hr hd, workerLoop_ok _ _ _ _ _ _ _ hr hd]
        obtain ⟨h₁, h₂⟩ := ih (resp :: deferred)
        refine ⟨by rw [h₁], ?_⟩
        simp only [sentTables, List.length_cons]
        omega

theorem workerLoop_panic_is_parse (env : Env) (selector : String) (jobs : List String)
    (h : ∀ job ∈ jobs, fetchFails env job = false) :
    ∀ deferred p, WorkerEvent.panic p ∈ workerLoop env selector jobs deferred →
      ∃ e, p = Panic.parse e := by
  induction jobs with
  | nil =>
    intro deferred p hp
    simp [workerLoop] at hp
  | cons job rest ih =>
    intro deferred p hp
    obtain ⟨resp, _, _, hr⟩ := getResponse_ok_of_not_fails env job (h job (List.mem_cons_self _ _))
    cases hd : getHtml env resp with
    | error q =>
      rw [workerLoop_parse_error _ _ _ _ _ _ _ hr hd] at hp
      simp at hp
      rw [hp]
      exact getHtml_error_is_parse env resp q hd
    | ok doc =>
      rw [workerLoop_ok _ _ _ _ _ _ _ hr hd] at hp
      simp only [List.mem_cons, reduceCtorEq, false_or] at hp
      exact ih (fun j hj => h j (List.mem_cons_of_mem _ hj)) _ p hp

theorem getResponse_error_iff (env : Env) (site : String) :
    fetchFails env site = true ↔ ∃ p, getResponse env site = .error p := by
  constructor
  · intro h
    obtain ⟨p, hp, _⟩ := getResponse_error_of_fails env site h
    exact ⟨p, hp⟩
  · rintro ⟨p, hp⟩
    cases hf : fetchFails env site with
    | true => rfl
    | false =>
      obtain ⟨resp, _, _, hr⟩ := getResponse_ok_of_not_fails env site hf
      rw [hr] at hp
      cases hp

/-- C9, amended: the fetch of a job makes `getResponse` panic exactly when the
transport returns an error or the status code is not 200, which includes every
status that is not a success status.  A worker that receives such a job after
the jobs `before` ends in a panic that ends the process: it sends nothing for
the job, so at most one slice per job of `before`, it receives none of the jobs
`after`, and its deferred `wg.Done()` runs all the same.  If every fetch returns
without error and with status code 200, `getResponse` returns the response for
every job and the only panic left to a worker is the one of `getHtml`. -/
theorem worker_fail_fast (env : Env) (selector : String) (before : List String)
    (job : String) (after : List String) :
    (fetchFails env job = true ↔ ∃ p, getResponse env job = .error p) ∧
    (fetchFailsSpec env job = true → fetchFails env job = true) ∧
    (fetchFails env job = true →
      (∃ p, WorkerEvent.panic p ∈ worker env selector (before ++ job :: after) ∧
        WorkerEvent.crash ∈ worker env selector (before ++ job :: after)) ∧
      worker env selector (before ++ job :: after) = worker env selector (before ++ [job]) ∧
      (sentTables (worker env selector (before ++ job :: after))).length ≤ before.length ∧
      WorkerEvent.wgDone ∈ worker env selector (before ++ job :: after)) ∧
    (∀ jobs : List String, (∀ j ∈ jobs, fetchFails env j = false) →
      (∀ j ∈ jobs, ∃ resp, getResponse env j = .ok resp) ∧
      (∀ p, WorkerEvent.panic p ∈ worker env selector jobs → ∃ e, p = Panic.parse e)) := by
  refine ⟨getResponse_error_iff env job, fetchFails_of_fetchFailsSpec env job, fun h => ?_,
    fun jobs h => ⟨fun j hj => ?_, fun p hp => ?_⟩⟩
  · have hstop := workerLoop_stops env selector before job after h []
    exact ⟨workerLoop_panics env selector _ ⟨job, by simp, h⟩ [], hstop.1, hstop.2,
      workerLoop_wgDone env selector _ []⟩
  · obtain ⟨resp, _, _, hr⟩ := getResponse_ok_of_not_fails env j (h j hj)
    exact ⟨resp, hr⟩
  · exact workerLoop_panic_is_parse env selector jobs h [] p hp

/-- C9 on three pages of which the second is served with status 404: the worker
sends the slice of the first page, panics on the second and never fetches the
third. -/
theorem worker_fail_fast_witness :
    worker (statusEnv fun site => if site = "u/2" then 404 else 200) "p"
      ["u/1", "u/2", "u/3"] =
      [.send [], .jobDone "u/1",
        .panic (.status "Got response status code equal 404. Aborting."),
        .bodyClose ⟨200, "u/1"⟩, .wgDone, .crash] ∧
    (sentTables (worker (statusEnv fun site => if site = "u/2" then 404 else 200) "p"
      (["u/1"] ++ "u/2" :: ["u/3"]))).length ≤ ["u/1"].length :=
  ⟨by decide, ((worker_fail_fast (statusEnv fun site => if site = "u/2" then 404 else 200) "p"
    ["u/1"] "u/2" ["u/3"]).2.2.1 (by decide)).2.2.1⟩

/-- C9 as stated fails: when a page is served without transport error and with
the success status 204, its fetch does not fail in the words of the claim, yet
`getResponse` panics and the worker ends in that panic. -/
theorem getResponse_panics_on_status_204 :
    isSuccessStatus 204 = true ∧
    fetchFailsSpec (statusEnv fun _ => 204) "u/1" = false ∧
    getResponse (statusEnv fun _ => 204) "u/1" =
      .error (.status "Got response status code equal 204. Aborting.") ∧
    worker (statusEnv fun _ => 204) "p" ["u/1"] =
      [.panic (.status "Got response status code equal 204. Aborting."), .wgDone, .crash] := by
  refine ⟨by decide, by decide, rfl, by decide⟩

end PhraseIndexer
